import Mathlib

/-!
# bitwise_nif: the yielding XOR transform

A shallow embedding of the NIFs of `c_src/bitwise_nif.c` (`exor`, `exor2` and
`exor_yield`) together with theorems about the slicing / resume protocol.

Conventions of the embedding:

* a binary is a `List Nat` of bytes (every element `< 256`);
* `unsigned long` and `size_t` are 64 bit wide, `unsigned` and `int` 32 bit.
  Unsigned arithmetic that can leave the range is written with an explicit
  `% 2 ^ 64`.  Signed `int` arithmetic (`total += pct`, `yields + 1`) is
  reduced into `[-2^31, 2^31)` by `toInt32`, as the compiled code does (the C
  standard leaves signed overflow undefined);
* the loops of `exor2` always end and are total functions; the loop of `exor`
  need not end, so its embedding takes a bound on the number of loop tests
  and returns `none` when the loop is still running after that many;
* an argument list holds decoded values: of the checks at the head of a NIF
  only those on the byte value (`enif_get_uint`, `val > 255`) can fail here;
* the resource buffer shared by all invocations of a task is passed along
  explicitly: it travels inside the argument list of the next invocation;
* everything the program asks of its environment (two clock readings per
  slice and the answer of `enif_consume_timeslice`) is read from a `Host`,
  one `Slot` per slice of an invocation;
* the externally visible actions of an invocation (stores into the resource
  buffer, calls of `enif_consume_timeslice`, allocations) are logged in a
  trace of `Event`s.
-/

namespace Bitwise

/-! ## Data model -/

/-- Modulus of `unsigned long` / `size_t`. -/
def ULONG_MOD : Nat := 2 ^ 64

/-- Modulus of `unsigned`. -/
def UINT_MOD : Nat := 2 ^ 32

/-- A `struct timeval`. -/
structure Timeval where
  tv_sec : Int
  tv_usec : Int
deriving DecidableEq, Repr

/-- The `timersub` macro of `<sys/time.h>`: `a - b`, normalised so that the
microsecond field is not negative. -/
def timersub (a b : Timeval) : Timeval :=
  let sec := a.tv_sec - b.tv_sec
  let usec := a.tv_usec - b.tv_usec
  if usec < 0 then ⟨sec - 1, usec + 1000000⟩ else ⟨sec, usec⟩

/-- The conversion `(int)x` of a `long`: reduction into `[-2^31, 2^31)`. -/
def toInt32 (x : Int) : Int := (x + 2 ^ 31) % 2 ^ 32 - 2 ^ 31

/-- The conversion of an `int` to `unsigned long`. -/
def toULong (x : Int) : Nat := (x % 2 ^ 64).toNat

/-- What the environment answers during one slice: the clock reading taken
before the slice, the one taken after it, and the answer of
`enif_consume_timeslice`. -/
structure Slot where
  start : Timeval
  stop : Timeval
  exhausted : Bool
deriving DecidableEq, Repr

/-- The environment of one invocation: slot `k` serves the `k`-th slice. -/
abbrev Host := Nat → Slot

/-- Externally visible actions. -/
inductive Event where
  /-- `enif_alloc_resource(res_type, size)` -/
  | alloc (size : Nat)
  /-- `((char*)res)[i] = ...` -/
  | store (i : Nat)
  /-- `enif_consume_timeslice(env, pct)` -/
  | consume (pct : Int)
deriving DecidableEq, Repr

/-- The argument list of `exor2`: binary, byte value, maximal number of bytes
per slice, offset, resource buffer, number of reschedules so far. -/
structure Argv where
  bin : List Nat
  val : Nat
  max_per_slice : Nat
  offset : Nat
  res : List Nat
  yields : Int
deriving DecidableEq, Repr

/-- The term a NIF returns. -/
inductive Term where
  /-- `enif_make_badarg(env)` -/
  | badarg
  /-- a bare binary (`return argv[0]`) -/
  | binary (data : List Nat)
  /-- `enif_make_tuple2(env, binary, enif_make_int(env, n))` -/
  | tuple2 (data : List Nat) (n : Int)
  /-- `enif_schedule_nif(env, "exor2", 0, exor2, 6, newargv)` -/
  | schedule (newargv : Argv)
deriving DecidableEq, Repr

/-- A returned term together with the actions performed on the way. -/
structure Outcome where
  ret : Term
  trace : List Event
deriving DecidableEq, Repr

/-- `enif_get_uint`: succeeds on integers that fit an `unsigned`. -/
def enif_get_uint (t : Nat) : Option Nat := if t < UINT_MOD then some t else none

/-! ## exor2 -/

/-- The local variables of `exor2` that change in its `while` loop, the
resource buffer, the number of slices started and the trace so far. -/
structure Locals where
  res : List Nat
  i : Nat
  end_ : Nat
  total : Int
  slices : Nat
  trace : List Event
deriving DecidableEq, Repr

/-- Lines 75-77 of the source, the inner loop
`do { ((char*)res)[i] = bin.data[i] ^ byte; } while (++i < end);`.
Returns the buffer, the trace and `i` at loop exit.  (`i < bin.size` holds
whenever `++i` is executed, so the increment does not wrap.) -/
def doWhile (bin : List Nat) (byte end_ : Nat) (res : List Nat) (trace : List Event) (i : Nat) :
    List Nat × List Event × Nat :=
  let res1 := res.set i ((bin.getD i 0 ^^^ byte) % 256)
  let trace1 := trace ++ [Event.store i]
  if i + 1 < end_ then doWhile bin byte end_ res1 trace1 (i + 1) else (res1, trace1, i + 1)
termination_by end_ - i

/-- Lines 82-85: the percentage of the timeslice used by a slice, before
clamping, from the two clock readings. -/
def slicePct (start stop : Timeval) : Int :=
  let slice := timersub stop start
  toInt32 ((slice.tv_sec * 1000000 + slice.tv_usec).tdiv 10)

/-- Lines 84-85: `if (pct > 100) pct = 100; else if (pct == 0) pct = 1;`. -/
def clampPct (pct : Int) : Int :=
  if pct > 100 then 100 else if pct = 0 then 1 else pct

/-- Lines 89-96: the new `max_per_slice`, from `p = i - offset` and `total`. -/
def reestimate (p : Nat) (total : Int) : Nat :=
  if total > 100 then
    let m := toInt32 (total.tdiv 100)
    if m = 1 then
      (p + ULONG_MOD - (p * toULong (total - 100)) % ULONG_MOD / 100) % ULONG_MOD
    else
      p / toULong m
  else p

/-- Lines 108-109: the final result of `exor2`. -/
def finish (argv : Argv) (res : List Nat) (trace : List Event) : Outcome :=
  ⟨Term.tuple2 (res.take argv.bin.length) argv.yields, trace⟩

/-- Lines 73-107 of the source: the `while (i < bin.size)` loop of `exor2`,
with the two exits (reschedule, finish). -/
def whileLoop (host : Host) (argv : Argv) (byte : Nat) (st : Locals) : Outcome :=
  if st.i < argv.bin.length then
    let start := (host st.slices).start
    let d := doWhile argv.bin byte st.end_ st.res st.trace st.i
    if d.2.2 = argv.bin.length then finish argv d.1 d.2.1
    else
      let stop := (host st.slices).stop
      let pct := slicePct start stop
      let total := toInt32 (st.total + pct)
      let pct1 := clampPct pct
      let trace1 := d.2.1 ++ [Event.consume pct1]
      if (host st.slices).exhausted then
        let max_per_slice := reestimate (d.2.2 - argv.offset) total
        ⟨Term.schedule
          { bin := argv.bin, val := argv.val, max_per_slice := max_per_slice,
            offset := d.2.2, res := d.1, yields := toInt32 (argv.yields + 1) }, trace1⟩
      else
        let end1 := (st.end_ + argv.max_per_slice) % ULONG_MOD
        let end2 := if end1 > argv.bin.length then argv.bin.length else end1
        whileLoop host argv byte
          { res := d.1, i := d.2.2, end_ := end2, total := total,
            slices := st.slices + 1, trace := trace1 }
  else finish argv st.res st.trace
termination_by argv.bin.length - st.i
decreasing_by
  have key : ∀ (res : List Nat) (trace : List Event) (i : Nat),
      i < (doWhile argv.bin byte st.end_ res trace i).2.2 := by
    intro res trace i
    induction res, trace, i using doWhile.induct argv.bin byte st.end_ with
    | case1 res trace i res1 trace1 h ih =>
      rw [doWhile]; simp only [h, if_true]
      simp only [res1, trace1] at ih; omega
    | case2 res trace i h =>
      rw [doWhile]; simp only [h, if_false]; omega
  have := key st.res st.trace st.i
  omega

/-- The NIF `exor2` (lines 48-110). -/
def exor2 (host : Host) (argv : Argv) : Outcome :=
  match enif_get_uint argv.val with
  | none => ⟨Term.badarg, []⟩
  | some val =>
    if val > 255 then ⟨Term.badarg, []⟩
    else
      let byte := val % 256
      let end1 := (argv.offset + argv.max_per_slice) % ULONG_MOD
      let end2 := if end1 > argv.bin.length then argv.bin.length else end1
      whileLoop host argv byte
        { res := argv.res, i := argv.offset, end_ := end2, total := 0, slices := 0, trace := [] }

/-! ## exor_yield -/

/-- The NIF `exor_yield` (lines 117-140).  `junk` is the content of the
freshly allocated, uninitialised resource. -/
def exor_yield (junk : Nat → Nat) (bin : List Nat) (val : Nat) : Outcome :=
  match enif_get_uint val with
  | none => ⟨Term.badarg, []⟩
  | some v =>
    if v > 255 then ⟨Term.badarg, []⟩
    else if bin.length = 0 then ⟨Term.binary bin, []⟩
    else
      let res := (List.range bin.length).map junk
      ⟨Term.schedule
        { bin := bin, val := val, max_per_slice := 4194304, offset := 0, res := res, yields := 0 },
        [Event.alloc bin.length]⟩

/-! ## exor -/

/-- Lines 33-34 of the source, the loop
`for (i = 0; i < bin.size; i++) outbin.data[i] = bin.data[i] ^ byte;`.
The counter `i` is an `unsigned`, so `i++` is an increment modulo `2^32`,
while `bin.size` is a `size_t`, to which `i` is converted for the test.  The
first argument bounds the number of loop tests: `none` means that the loop is
still running after that many. -/
def exorFor (bin : List Nat) (byte : Nat) : Nat → List Nat → Nat → Option (List Nat)
  | 0, _, _ => none
  | fuel + 1, outbin, i =>
    if i < bin.length then
      exorFor bin byte fuel (outbin.set i ((bin.getD i 0 ^^^ byte) % 256)) ((i + 1) % UINT_MOD)
    else some outbin

/-- The NIF `exor` (lines 19-38), run for at most `fuel` loop tests; `none`
means that it has not returned by then.  `junk` is the content of the freshly
allocated, uninitialised binary. -/
def exor (fuel : Nat) (junk : Nat → Nat) (bin : List Nat) (val : Nat) : Option Term :=
  match enif_get_uint val with
  | none => some Term.badarg
  | some v =>
    if v > 255 then some Term.badarg
    else if bin.length = 0 then some (Term.binary bin)
    else
      (exorFor bin (v % 256) fuel ((List.range bin.length).map junk) 0).map
        fun outbin => Term.tuple2 outbin 0

/-! ## The host scheduler -/

/-- The state of a task as the host sees it: the term returned last, the
number of `exor2` invocations so far and everything the task did so far. -/
structure Run where
  ret : Term
  calls : Nat
  trace : List Event
deriving DecidableEq, Repr

/-- The host honouring `enif_schedule_nif`: as long as the term returned last
is a reschedule request, call `exor2` on the argument list it carries, at most
`n` times.  Invocation number `k` of the task runs in environment `hosts k`. -/
def resume (hosts : Nat → Host) : Nat → Run → Run
  | 0, r => r
  | n + 1, r =>
    match r.ret with
    | Term.schedule newargv =>
      let o := exor2 (hosts r.calls) newargv
      resume hosts n ⟨o.ret, r.calls + 1, r.trace ++ o.trace⟩
    | _ => r

/-- A whole task: the entry call `exor_yield`, then at most `n` invocations
of `exor2`. -/
def task (hosts : Nat → Host) (junk : Nat → Nat) (n : Nat) (bin : List Nat) (val : Nat) : Run :=
  let o := exor_yield junk bin val
  resume hosts n ⟨o.ret, 0, o.trace⟩

/-! ## Vocabulary of the statements -/

/-- The indices stored to, in order. -/
def stores (tr : List Event) : List Nat :=
  tr.filterMap fun e => match e with
    | Event.store i => some i
    | _ => none

/-- The percentages reported to `enif_consume_timeslice`, in order. -/
def consumes (tr : List Event) : List Int :=
  tr.filterMap fun e => match e with
    | Event.consume p => some p
    | _ => none

/-- The sizes of the allocated resources, in order. -/
def allocs (tr : List Event) : List Nat :=
  tr.filterMap fun e => match e with
    | Event.alloc n => some n
    | _ => none

/-- The unclamped percentage measured for slice `k` of an invocation. -/
def pctOf (host : Host) (k : Nat) : Int := slicePct (host k).start (host k).stop

/-- The value of `total` after `n` measured slices of an invocation. -/
def cumulative (host : Host) : Nat → Int
  | 0 => 0
  | n + 1 => toInt32 (cumulative host n + pctOf host n)

/-- A well-formed binary: every element is a byte. -/
def IsBytes (S : List Nat) : Prop := ∀ b ∈ S, b < 256

instance (S : List Nat) : Decidable (IsBytes S) := by
  unfold IsBytes; infer_instance

/-- The byte `exor2` stores at index `j`. -/
def xorAt (bin : List Nat) (byte j : Nat) : Nat := (bin.getD j 0 ^^^ byte) % 256

/-- Buffer `res1` is buffer `res0` with the bytes at the indices of `[lo, hi)`
replaced by the transformed bytes of `bin`; all other bytes are those of
`res0`. -/
def Filled (bin : List Nat) (byte : Nat) (res0 res1 : List Nat) (lo hi : Nat) : Prop :=
  ∀ j, res1[j]? = if lo ≤ j ∧ j < hi then (res0[j]?).map (fun _ => xorAt bin byte j) else res0[j]?

/-- The invariant of the `while` loop of `exor2`, at the loop head. -/
structure LoopInv (host : Host) (argv : Argv) (byte : Nat) (st : Locals) : Prop where
  end_le : st.end_ ≤ argv.bin.length
  total_eq : st.total = cumulative host st.slices
  not_exh : ∀ k, k < st.slices → (host k).exhausted = false
  stores_eq : stores st.trace = List.range' argv.offset (st.i - argv.offset)
  consumes_eq : consumes st.trace = (List.range st.slices).map (fun k => clampPct (pctOf host k))
  off_le : argv.offset ≤ st.i
  filled : Filled argv.bin byte argv.res st.res argv.offset st.i
  pos : st.i < argv.bin.length ∨ (st.slices = 0 ∧ st.i = argv.offset)

/-- The argument list `exor2` reschedules itself with, when it stops at index
`i` after `n` measured slices with buffer `res`. -/
def nextArgv (host : Host) (argv : Argv) (n i : Nat) (res : List Nat) : Argv :=
  { bin := argv.bin, val := argv.val,
    max_per_slice := reestimate (i - argv.offset) (cumulative host n),
    offset := i, res := res, yields := toInt32 (argv.yields + 1) }

/-- How an invocation of `exor2` ends: after `n` measured slices, at index `i`,
with buffer `res`, either finishing or rescheduling. -/
def Exit (host : Host) (argv : Argv) (byte : Nat) (out : Outcome) : Prop :=
  ∃ (n i : Nat) (res : List Nat),
    stores out.trace = List.range' argv.offset (i - argv.offset) ∧
    consumes out.trace = (List.range n).map (fun k => clampPct (pctOf host k)) ∧
    Filled argv.bin byte argv.res res argv.offset i ∧
    argv.offset ≤ i ∧
    ((out.ret = Term.tuple2 (res.take argv.bin.length) argv.yields ∧
        (∀ k, k < n → (host k).exhausted = false) ∧
        (i = argv.bin.length ∨ (n = 0 ∧ i = argv.offset ∧ argv.bin.length ≤ argv.offset))) ∨
     (out.ret = Term.schedule (nextArgv host argv n i res) ∧
        argv.offset < i ∧ i < argv.bin.length ∧
        ∃ m, n = m + 1 ∧ (host m).exhausted = true ∧ ∀ k, k < m → (host k).exhausted = false))

/-- What holds of the argument list of every `exor2` invocation of a task on
the binary `S` with byte value `K`: the buffer has the length of `S`, the
offset lies inside `S`, the buffer is final below the offset, and the yield
count is an `int`. -/
structure TaskInv (S : List Nat) (K : Nat) (argv : Argv) : Prop where
  bin_eq : argv.bin = S
  val_eq : argv.val = K
  len_eq : argv.res.length = S.length
  off_lt : argv.offset < S.length
  done : ∀ j, j < argv.offset → argv.res[j]? = some (xorAt S K j)
  yields_int : toInt32 argv.yields = argv.yields

/-! ## Slices of an invocation -/

/-- Lines 71 and 106: `if (end > bin.size) end = bin.size;`. -/
def clampEnd (size e : Nat) : Nat := if e > size then size else e

/-- The value of `end` during slice `k` of an invocation (lines 70-71 for the
first slice, lines 105-106 for every later one). -/
def endAt (argv : Argv) : Nat → Nat
  | 0 => clampEnd argv.bin.length ((argv.offset + argv.max_per_slice) % ULONG_MOD)
  | k + 1 => clampEnd argv.bin.length ((endAt argv k + argv.max_per_slice) % ULONG_MOD)

/-- The value of `i` when slice `k` of an invocation starts; slice `k` ends
where slice `k + 1` starts, at `max end (i + 1)`. -/
def posAt (argv : Argv) : Nat → Nat
  | 0 => argv.offset
  | k + 1 => max (endAt argv k) (posAt argv k + 1)

/-- The stores of slice `k`. -/
def sliceStores (argv : Argv) (k : Nat) : List Event :=
  (List.range' (posAt argv k) (posAt argv (k + 1) - posAt argv k)).map Event.store

/-- The trace of the first `n` slices when each of them is followed by a
measurement and a call of `enif_consume_timeslice`. -/
def measured (host : Host) (argv : Argv) : Nat → List Event
  | 0 => []
  | n + 1 => measured host argv n ++ sliceStores argv n
      ++ [Event.consume (clampPct (pctOf host n))]

/-- The loop invariant of `exor2` at the head of a slice, in terms of slice
boundaries. -/
structure SliceInv (host : Host) (argv : Argv) (st : Locals) : Prop where
  i_eq : st.i = posAt argv st.slices
  end_eq : st.end_ = endAt argv st.slices
  total_eq : st.total = cumulative host st.slices
  trace_eq : st.trace = measured host argv st.slices
  i_lt : st.i < argv.bin.length
  not_exh : ∀ k, k < st.slices → (host k).exhausted = false

/-- How an invocation that enters its loop ends, in terms of slice boundaries:
slice `n` is the last one.  Either it ends before the end of the binary and
the host reports the timeslice as used up, or it reaches the end of the
binary; all slices before it were measured and reported, without the
timeslice being used up. -/
def SliceExit (host : Host) (argv : Argv) (out : Outcome) : Prop :=
  ∃ (n : Nat) (res : List Nat),
    (∀ k, k < n → (host k).exhausted = false) ∧ posAt argv n < argv.bin.length ∧
    (((host n).exhausted = true ∧ posAt argv (n + 1) < argv.bin.length ∧
        out = ⟨Term.schedule (nextArgv host argv (n + 1) (posAt argv (n + 1)) res),
          measured host argv (n + 1)⟩) ∨
     (posAt argv (n + 1) = argv.bin.length ∧
        out = ⟨Term.tuple2 (res.take argv.bin.length) argv.yields,
          measured host argv n ++ sliceStores argv n⟩))

/-- The indices stored to before the first call of `enif_consume_timeslice`:
the first slice of an invocation. -/
def firstSlice (tr : List Event) : List Nat :=
  stores (tr.takeWhile fun e => match e with
    | Event.consume _ => false
    | _ => true)

/-! ## Concrete inputs used to instantiate the theorems -/

/-- An environment in which every slice takes 1500 microseconds and uses up
the timeslice. -/
def busyHost : Host := fun _ => ⟨⟨0, 0⟩, ⟨0, 1500⟩, true⟩

/-- An environment in which every slice takes 50 microseconds and the
timeslice is never used up. -/
def idleHost : Host := fun _ => ⟨⟨0, 0⟩, ⟨0, 50⟩, false⟩

/-- A resource whose fresh content is all zero. -/
def zeroJunk : Nat → Nat := fun _ => 0

/-- An argument list: scenario 2 of the specification, one byte per slice. -/
def argvEx : Argv :=
  { bin := [0x00, 0xFF, 0x0F], val := 0xFF, max_per_slice := 1, offset := 0,
    res := [7, 7, 7], yields := 0 }

/-- The argument list `argvEx` with a slice budget of 0. -/
def argvZero : Argv :=
  { bin := [0x00, 0xFF, 0x0F], val := 0xFF, max_per_slice := 0, offset := 0,
    res := [7, 7, 7], yields := 0 }

/-- The argument list `exor2 busyHost argvEx` reschedules with. -/
def argvEx1 : Argv :=
  { bin := [0x00, 0xFF, 0x0F], val := 0xFF, max_per_slice := 1, offset := 1,
    res := [0xFF, 7, 7], yields := 1 }

/-- The argument list `exor2 busyHost argvEx1` reschedules with. -/
def argvEx2 : Argv :=
  { bin := [0x00, 0xFF, 0x0F], val := 0xFF, max_per_slice := 1, offset := 2,
    res := [0xFF, 0x00, 7], yields := 2 }

/-- An environment in which every slice takes 50 microseconds and uses up the
timeslice. -/
def quickHost : Host := fun _ => ⟨⟨0, 0⟩, ⟨0, 50⟩, true⟩

/-- An environment in which every slice takes 2500 microseconds and uses up
the timeslice. -/
def slowHost : Host := fun _ => ⟨⟨0, 0⟩, ⟨0, 2500⟩, true⟩

/-- The argument list `argvEx` with a slice budget of 2. -/
def argvTwo : Argv :=
  { bin := [0x00, 0xFF, 0x0F], val := 0xFF, max_per_slice := 2, offset := 0,
    res := [7, 7, 7], yields := 0 }

/-- The argument list `exor2 quickHost argvTwo` reschedules with. -/
def argvTwoQuick : Argv :=
  { bin := [0x00, 0xFF, 0x0F], val := 0xFF, max_per_slice := 2, offset := 2,
    res := [0xFF, 0x00, 7], yields := 1 }

/-- The argument list `exor2 slowHost argvTwo` reschedules with. -/
def argvTwoSlow : Argv :=
  { bin := [0x00, 0xFF, 0x0F], val := 0xFF, max_per_slice := 1, offset := 2,
    res := [0xFF, 0x00, 7], yields := 1 }

/-- An environment whose wall clock is set back by 50 microseconds during
every slice, and in which every slice uses up the timeslice. -/
def backHost : Host := fun _ => ⟨⟨0, 100⟩, ⟨0, 50⟩, true⟩

/-- The argument list `exor2 backHost argvEx` reschedules with. -/
def argvExBack : Argv :=
  { bin := [0x00, 0xFF, 0x0F], val := 0xFF, max_per_slice := 1, offset := 1,
    res := [0xFF, 7, 7], yields := 1 }

/-- An argument list whose offset plus slice budget wraps around `2^64`. -/
def argvWrap : Argv :=
  { bin := [0x00, 0xFF, 0x0F], val := 0xFF, max_per_slice := 2 ^ 64 - 1, offset := 1,
    res := [7, 7, 7], yields := 0 }

/-- The argument list `exor2 busyHost argvWrap` reschedules with. -/
def argvWrap1 : Argv :=
  { bin := [0x00, 0xFF, 0x0F], val := 0xFF, max_per_slice := 1, offset := 2,
    res := [7, 0x00, 7], yields := 1 }

/-- An argument list whose offset is the length of the binary. -/
def argvPast : Argv :=
  { bin := [0x00, 0xFF, 0x0F], val := 0xFF, max_per_slice := 2 ^ 64 - 1, offset := 3,
    res := [0xFF, 0x00, 0xF0], yields := 2 }

/-- An environment in which every slice takes 50 microseconds and the host
reports the timeslice as used up from the second slice on. -/
def lateHost : Host := fun k => ⟨⟨0, 0⟩, ⟨0, 50⟩, decide (1 ≤ k)⟩

/-- The argument list `exor2 lateHost argvEx` reschedules with. -/
def argvExLate : Argv :=
  { bin := [0x00, 0xFF, 0x0F], val := 0xFF, max_per_slice := 2, offset := 2,
    res := [0xFF, 0x00, 7], yields := 1 }

/-- An environment in which the first two slices take 50 microseconds and do
not use up the timeslice, and every later slice takes 5000 microseconds and
uses it up. -/
def lastHost : Host := fun k =>
  if k < 2 then ⟨⟨0, 0⟩, ⟨0, 50⟩, false⟩ else ⟨⟨0, 0⟩, ⟨0, 5000⟩, true⟩

/-- A binary of `2^32` zero bytes. -/
def fourGiB : List Nat := List.replicate (2 ^ 32) 0

/-- An argument list for a binary of 7 bytes with a slice budget of 3. -/
def argvSeven : Argv :=
  { bin := [0, 1, 2, 3, 4, 5, 6], val := 0xFF, max_per_slice := 3, offset := 0,
    res := [7, 7, 7, 7, 7, 7, 7], yields := 0 }

/-- An environment in which every slice takes 15000 seconds (a percentage of
1500000000) and the host reports the timeslice as used up from the second
slice on: the sum of two percentages does not fit an `int`. -/
def wrapHost : Host := fun k => ⟨⟨0, 0⟩, ⟨15000, 0⟩, decide (1 ≤ k)⟩

/-- The argument list `exor2 wrapHost argvSeven` reschedules with. -/
def argvSevenWrap : Argv :=
  { bin := [0, 1, 2, 3, 4, 5, 6], val := 0xFF, max_per_slice := 6, offset := 6,
    res := [0xFF, 0xFE, 0xFD, 0xFC, 0xFB, 0xFA, 7], yields := 1 }

/-! ## The inner loop -/

theorem stores_append (a b : List Event) : stores (a ++ b) = stores a ++ stores b := by
  simp [stores]

theorem consumes_append (a b : List Event) : consumes (a ++ b) = consumes a ++ consumes b := by
  simp [consumes]

theorem stores_map_store (l : List Nat) : stores (l.map Event.store) = l := by
  induction l with
  | nil => rfl
  | cons a l ih => simp [stores] at ih ⊢; exact ih

theorem consumes_map_store (l : List Nat) : consumes (l.map Event.store) = [] := by
  induction l with
  | nil => rfl
  | cons a l ih => simp [consumes]

theorem getElem?_set_map (l : List Nat) (i j a : Nat) :
    (l.set i a)[j]? = if i = j then (l[j]?).map (fun _ => a) else l[j]? := by
  rw [List.getElem?_set']
  split <;> rfl

/-- The inner loop in closed form: it leaves `i` at `max end (i + 1)`, logs one
store per index of `[i, max end (i + 1))` and overwrites exactly the bytes of
the buffer at these indices. -/
theorem doWhile_spec (bin : List Nat) (byte end_ : Nat) (res : List Nat) (trace : List Event)
    (i : Nat) :
    (doWhile bin byte end_ res trace i).2.2 = max end_ (i + 1) ∧
    (doWhile bin byte end_ res trace i).2.1
      = trace ++ (List.range' i (max end_ (i + 1) - i)).map Event.store ∧
    ∀ j, (doWhile bin byte end_ res trace i).1[j]?
      = if i ≤ j ∧ j < max end_ (i + 1) then (res[j]?).map (fun _ => xorAt bin byte j)
        else res[j]? := by
  induction res, trace, i using doWhile.induct bin byte end_ with
  | case1 res trace i res1 trace1 h ih =>
    rw [doWhile]; simp only [h, if_true]
    simp only [res1, trace1] at ih
    obtain ⟨h1, h2, h3⟩ := ih
    have e1 : max end_ (i + 1 + 1) = end_ := by omega
    have e2 : max end_ (i + 1) = end_ := by omega
    rw [e1] at h1 h2 h3
    rw [e2]
    refine ⟨h1, ?_, ?_⟩
    · rw [h2]
      have : end_ - i = (end_ - (i + 1)) + 1 := by omega
      rw [this, List.range'_succ]
      simp
    · intro j
      rw [h3 j, getElem?_set_map]
      by_cases hj : i = j
      · subst hj
        rw [if_neg (by omega), if_pos rfl, if_pos (by omega)]
        rfl
      · rw [if_neg hj]
        by_cases hj2 : i + 1 ≤ j ∧ j < end_
        · rw [if_pos hj2, if_pos (by omega)]
        · rw [if_neg hj2, if_neg (by omega)]
  | case2 res trace i h =>
    rw [doWhile]; simp only [h, if_false]
    have e2 : max end_ (i + 1) = i + 1 := by omega
    rw [e2]
    refine ⟨rfl, ?_, ?_⟩
    · have : i + 1 - i = 1 := by omega
      rw [this]; rfl
    · intro j
      rw [getElem?_set_map]
      by_cases hj : i = j
      · subst hj
        rw [if_pos rfl, if_pos (by omega)]
        rfl
      · rw [if_neg hj, if_neg (by omega)]

/-! ## The outer loop -/

theorem Filled.extend {bin : List Nat} {byte : Nat} {res0 res1 res2 : List Nat} {lo mid hi : Nat}
    (h1 : Filled bin byte res0 res1 lo mid)
    (h2 : ∀ j, res2[j]? = if mid ≤ j ∧ j < hi then (res1[j]?).map (fun _ => xorAt bin byte j)
      else res1[j]?)
    (hlo : lo ≤ mid) (hhi : mid ≤ hi) : Filled bin byte res0 res2 lo hi := by
  intro j
  rw [h2 j, h1 j]
  by_cases a : mid ≤ j ∧ j < hi
  · rw [if_pos a, if_neg (by omega), if_pos (by omega)]
  · rw [if_neg a]
    by_cases b : lo ≤ j ∧ j < mid
    · rw [if_pos b, if_pos (by omega)]
    · rw [if_neg b, if_neg (by omega)]

theorem Filled.refl (bin : List Nat) (byte : Nat) (res : List Nat) (lo : Nat) :
    Filled bin byte res res lo lo := by
  intro j
  rw [if_neg (by omega)]

theorem range'_glue (a b c : Nat) (h1 : a ≤ b) (h2 : b ≤ c) :
    List.range' a (b - a) ++ List.range' b (c - b) = List.range' a (c - a) := by
  have e : c - a = (c - b) + (b - a) := by omega
  have e2 : List.range' b (c - b) = List.range' (a + (b - a)) (c - b) := by
    congr 1; omega
  rw [e, e2, List.range'_append_1]

theorem range_succ_map {α : Type} (f : Nat → α) (n : Nat) :
    (List.range (n + 1)).map f = (List.range n).map f ++ [f n] := by
  rw [List.range_succ, List.map_append]; rfl

/-- Every run of the `while` loop that starts in a state satisfying the loop
invariant ends in one of the two ways described by `Exit`. -/
theorem whileLoop_exit (host : Host) (argv : Argv) (byte : Nat) :
    ∀ (n : Nat) (st : Locals), argv.bin.length - st.i = n → LoopInv host argv byte st →
      Exit host argv byte (whileLoop host argv byte st) := by
  intro n
  induction n using Nat.strong_induction_on with
  | _ n ih =>
    intro st hn inv
    rw [whileLoop]
    by_cases hi : st.i < argv.bin.length
    · rw [if_pos hi]
      obtain ⟨d1, d2, d3⟩ := doWhile_spec argv.bin byte st.end_ st.res st.trace st.i
      have hle := inv.end_le
      have hoff := inv.off_le
      have hst : stores (doWhile argv.bin byte st.end_ st.res st.trace st.i).2.1
          = List.range' argv.offset (max st.end_ (st.i + 1) - argv.offset) := by
        rw [d2, stores_append, stores_map_store, inv.stores_eq]
        exact range'_glue _ _ _ hoff (by omega)
      have hco : consumes (doWhile argv.bin byte st.end_ st.res st.trace st.i).2.1
          = (List.range st.slices).map (fun k => clampPct (pctOf host k)) := by
        rw [d2, consumes_append, consumes_map_store, inv.consumes_eq, List.append_nil]
      have hfi : Filled argv.bin byte argv.res
          (doWhile argv.bin byte st.end_ st.res st.trace st.i).1 argv.offset
          (max st.end_ (st.i + 1)) :=
        inv.filled.extend d3 hoff (by omega)
      by_cases hd : (doWhile argv.bin byte st.end_ st.res st.trace st.i).2.2 = argv.bin.length
      · simp only [hd, if_true, finish]
        refine ⟨st.slices, max st.end_ (st.i + 1), _, hst, hco, hfi, by omega, Or.inl ⟨rfl, inv.not_exh, ?_⟩⟩
        left; rw [← d1, hd]
      · simp only [hd, if_false]
        have hlt : max st.end_ (st.i + 1) < argv.bin.length := by
          rw [d1] at hd; omega
        have htot : toInt32 (st.total + slicePct (host st.slices).start (host st.slices).stop)
            = cumulative host (st.slices + 1) := by
          rw [cumulative, inv.total_eq]; rfl
        have hco2 : consumes ((doWhile argv.bin byte st.end_ st.res st.trace st.i).2.1 ++
            [Event.consume (clampPct (slicePct (host st.slices).start (host st.slices).stop))])
            = (List.range (st.slices + 1)).map (fun k => clampPct (pctOf host k)) := by
          rw [consumes_append, hco, range_succ_map]; rfl
        have hst2 : stores ((doWhile argv.bin byte st.end_ st.res st.trace st.i).2.1 ++
            [Event.consume (clampPct (slicePct (host st.slices).start (host st.slices).stop))])
            = List.range' argv.offset (max st.end_ (st.i + 1) - argv.offset) := by
          rw [stores_append, hst]; simp [stores]
        by_cases hex : (host st.slices).exhausted = true
        · simp only [hex, if_true]
          refine ⟨st.slices + 1, max st.end_ (st.i + 1), _, hst2, hco2, hfi, by omega, Or.inr ⟨?_, by omega, hlt, st.slices, rfl, hex, inv.not_exh⟩⟩
          simp only [nextArgv, ← htot, d1]
        · simp only [hex]
          have hex' : (host st.slices).exhausted = false := by simpa using hex
          apply ih (argv.bin.length - max st.end_ (st.i + 1)) (by omega) _ (by simp only [d1])
          refine ⟨?_, ?_, ?_, ?_, ?_, ?_, ?_, ?_⟩
          · simp only []; split <;> omega
          · exact htot
          · intro k hk
            simp only [] at hk
            by_cases hk' : k = st.slices
            · rw [hk']; exact hex'
            · exact inv.not_exh k (by omega)
          · simp only [d1]; exact hst2
          · exact hco2
          · simp only [d1]; omega
          · simp only [d1]; exact hfi
          · left; simp only [d1]; exact hlt
    · rw [if_neg hi]
      simp only [finish]
      have hp := inv.pos
      have : st.slices = 0 ∧ st.i = argv.offset := by
        rcases hp with hp | hp
        · exact absurd hp hi
        · exact hp
      refine ⟨st.slices, st.i, st.res, inv.stores_eq, inv.consumes_eq, inv.filled, inv.off_le, Or.inl ⟨rfl, inv.not_exh, Or.inr ⟨this.1, this.2, by omega⟩⟩⟩

/-! ## One invocation of exor2 -/

theorem enif_get_uint_of_le {val : Nat} (hv : val ≤ 255) : enif_get_uint val = some val := by
  unfold enif_get_uint UINT_MOD
  rw [if_pos (by omega)]

/-- With a byte value in range, `exor2` is its `while` loop started at
`i = offset` with the clamped `end` of lines 70-71. -/
theorem exor2_eq_whileLoop (host : Host) (argv : Argv) (hv : argv.val ≤ 255) :
    exor2 host argv = whileLoop host argv argv.val
      { res := argv.res, i := argv.offset,
        end_ := if (argv.offset + argv.max_per_slice) % ULONG_MOD > argv.bin.length
          then argv.bin.length else (argv.offset + argv.max_per_slice) % ULONG_MOD,
        total := 0, slices := 0, trace := [] } := by
  unfold exor2
  rw [enif_get_uint_of_le hv]
  simp only []
  rw [if_neg (by omega), Nat.mod_eq_of_lt (by omega : argv.val < 256)]

theorem exor2_badarg (host : Host) (argv : Argv) (hv : 255 < argv.val) :
    exor2 host argv = ⟨Term.badarg, []⟩ := by
  unfold exor2 enif_get_uint
  split
  · rfl
  · rename_i val h
    split at h
    · injection h with h
      subst h
      rw [if_pos hv]
    · exact absurd h (by simp)

/-- Every invocation of `exor2` with a byte value in range ends as `Exit`
describes. -/
theorem exor2_exit (host : Host) (argv : Argv) (hv : argv.val ≤ 255) :
    Exit host argv argv.val (exor2 host argv) := by
  rw [exor2_eq_whileLoop host argv hv]
  apply whileLoop_exit host argv argv.val _ _ rfl
  refine ⟨?_, rfl, ?_, ?_, ?_, ?_, ?_, ?_⟩
  · simp only []; split <;> omega
  · intro k hk; exact absurd hk (by simp)
  · simp [stores]
  · simp [consumes]
  · exact Nat.le_refl _
  · exact Filled.refl _ _ _ _
  · right; exact ⟨rfl, rfl⟩

/-! ## A whole task -/

theorem Filled.length_eq {bin : List Nat} {byte : Nat} {res0 res : List Nat} {lo hi : Nat}
    (h : Filled bin byte res0 res lo hi) : res.length = res0.length := by
  apply Nat.le_antisymm
  · have h0 : res0[res0.length]? = none := List.getElem?_eq_none (Nat.le_refl _)
    have := h res0.length
    rw [h0] at this
    simp only [Option.map_none', ite_self] at this
    exact List.getElem?_eq_none_iff.mp this
  · have h0 : res[res.length]? = none := List.getElem?_eq_none (Nat.le_refl _)
    have := h res.length
    rw [h0] at this
    by_cases c : lo ≤ res.length ∧ res.length < hi
    · rw [if_pos c] at this
      have h2 : res0[res.length]? = none := by
        cases h3 : res0[res.length]? with
        | none => rfl
        | some v => rw [h3] at this; simp at this
      exact List.getElem?_eq_none_iff.mp h2
    · rw [if_neg c] at this
      exact List.getElem?_eq_none_iff.mp this.symm

theorem Filled.done {bin : List Nat} {byte : Nat} {res0 res : List Nat} {lo hi : Nat}
    (h : Filled bin byte res0 res lo hi)
    (h0 : ∀ j, j < lo → res0[j]? = some (xorAt bin byte j)) (hlen : hi ≤ res0.length) :
    ∀ j, j < hi → res[j]? = some (xorAt bin byte j) := by
  intro j hj
  rw [h j]
  by_cases c : lo ≤ j ∧ j < hi
  · rw [if_pos c, List.getElem?_eq_getElem (by omega : j < res0.length)]
    rfl
  · rw [if_neg c]
    exact h0 j (by omega)

theorem Filled.below {bin : List Nat} {byte : Nat} {res0 res : List Nat} {lo hi : Nat}
    (h : Filled bin byte res0 res lo hi) : ∀ j, j < lo → res[j]? = res0[j]? := by
  intro j hj
  rw [h j, if_neg (by omega)]

theorem take_eq_map (S : List Nat) (K : Nat) (res : List Nat)
    (h : ∀ j, j < S.length → res[j]? = some (xorAt S K j)) :
    res.take S.length = S.map (fun b => (b ^^^ K) % 256) := by
  apply List.ext_getElem?
  intro j
  rw [List.getElem?_take, List.getElem?_map]
  by_cases c : j < S.length
  · rw [if_pos c, h j c, List.getElem?_eq_getElem c]
    simp [xorAt, List.getElem?_eq_getElem c]
  · rw [if_neg c, List.getElem?_eq_none (by omega)]
    rfl

theorem map_xor_bytes (S : List Nat) (K : Nat) (hB : IsBytes S) (hK : K ≤ 255) :
    S.map (fun b => (b ^^^ K) % 256) = S.map (fun b => b ^^^ K) := by
  apply List.map_congr_left
  intro b hb
  have h1 : b < 2 ^ 8 := hB b hb
  have h2 : K < 2 ^ 8 := by omega
  exact Nat.mod_eq_of_lt (Nat.xor_lt_two_pow h1 h2)

theorem toInt32_range (a : Int) : -2 ^ 31 ≤ toInt32 a ∧ toInt32 a < 2 ^ 31 := by
  unfold toInt32
  omega

theorem toInt32_idem (a : Int) : toInt32 (toInt32 a) = toInt32 a := by
  unfold toInt32
  omega

theorem toInt32_toInt32_add (a b : Int) : toInt32 (toInt32 a + b) = toInt32 (a + b) := by
  unfold toInt32
  omega

/-- One invocation of a task in flight either finishes with the transformed
binary or reschedules with a larger offset, keeping `TaskInv`. -/
theorem exor2_step (host : Host) (S : List Nat) (K : Nat) (hK : K ≤ 255) (argv : Argv)
    (inv : TaskInv S K argv) :
    ((exor2 host argv).ret = Term.tuple2 (S.map (fun b => (b ^^^ K) % 256)) argv.yields ∧
      stores (exor2 host argv).trace = List.range' argv.offset (S.length - argv.offset)) ∨
    (∃ a, (exor2 host argv).ret = Term.schedule a ∧ TaskInv S K a ∧ argv.offset < a.offset ∧
      a.yields = toInt32 (argv.yields + 1) ∧
      stores (exor2 host argv).trace = List.range' argv.offset (a.offset - argv.offset)) := by
  obtain ⟨hb, hv, hl, ho, hd, _⟩ := inv
  obtain ⟨n, i, res, h1, _, h3, h4, h5⟩ := exor2_exit host argv (by omega)
  rw [hb, hv] at h3
  rw [hb] at h5
  rcases h5 with ⟨hr, _, hi⟩ | ⟨hr, hi1, hi2, _⟩
  · have hi' : i = S.length := by
      rcases hi with hi | ⟨_, _, hi⟩
      · exact hi
      · omega
    subst hi'
    left
    refine ⟨?_, h1⟩
    rw [hr, take_eq_map S K res (h3.done hd (by omega))]
  · right
    refine ⟨_, hr, ⟨hb, hv, ?_, hi2, ?_, ?_⟩, hi1, rfl, h1⟩
    · show res.length = S.length
      rw [h3.length_eq, hl]
    · exact h3.done hd (by omega)
    · exact toInt32_idem _

theorem resume_final (hosts : Nat → Host) (n : Nat) (r : Run)
    (h : ∀ a, r.ret ≠ Term.schedule a) : resume hosts n r = r := by
  cases n with
  | zero => rfl
  | succ n =>
    rw [resume]
    split
    · rename_i a ha
      exact absurd ha (h a)
    · rfl

/-- From any state in flight, at most `length S - offset` further
invocations finish the task; the yield count grows by one, in `int`
arithmetic, per invocation after the first, and the stores cover the rest of
the binary in order. -/
theorem resume_spec (hosts : Nat → Host) (S : List Nat) (K : Nat) (hK : K ≤ 255) :
    ∀ (n : Nat) (r : Run) (argv : Argv), r.ret = Term.schedule argv → TaskInv S K argv →
      S.length - argv.offset ≤ n →
      (resume hosts n r).ret = Term.tuple2 (S.map (fun b => (b ^^^ K) % 256))
          (toInt32 (argv.yields + (((resume hosts n r).calls : Int) - r.calls - 1))) ∧
        r.calls < (resume hosts n r).calls ∧
        (resume hosts n r).calls ≤ r.calls + (S.length - argv.offset) ∧
        stores (resume hosts n r).trace
          = stores r.trace ++ List.range' argv.offset (S.length - argv.offset) := by
  intro n
  induction n with
  | zero =>
    intro r argv _ inv hn
    have := inv.off_lt
    omega
  | succ n ih =>
    intro r argv hr inv hn
    have hoff := inv.off_lt
    rw [resume]
    simp only [hr]
    rcases exor2_step (hosts r.calls) S K hK argv inv with ⟨h1, h2⟩ | ⟨a, h1, h2, h3, h4, h5⟩
    · rw [resume_final hosts n _ (by intro a; rw [h1]; exact fun h => Term.noConfusion h)]
      refine ⟨?_, ?_, ?_, ?_⟩
      · have e : argv.yields + (((r.calls + 1 : Nat) : Int) - r.calls - 1) = argv.yields := by
          push_cast
          ring
        rw [h1]
        show Term.tuple2 _ argv.yields
          = Term.tuple2 _ (toInt32 (argv.yields + (((r.calls + 1 : Nat) : Int) - r.calls - 1)))
        rw [e, inv.yields_int]
      · simp
      · simp only []; omega
      · rw [stores_append, h2]
    · obtain ⟨i1, i2, i3, i4⟩ :=
        ih ⟨(exor2 (hosts r.calls) argv).ret, r.calls + 1,
          r.trace ++ (exor2 (hosts r.calls) argv).trace⟩ a h1 h2 (by omega)
      have hoff2 := h2.off_lt
      refine ⟨?_, ?_, ?_, ?_⟩
      · rw [i1, h4, toInt32_toInt32_add]
        congr 2
        simp only []
        push_cast
        ring
      · simp only [] at i2; omega
      · simp only [] at i3; omega
      · rw [i4, stores_append, h5, List.append_assoc,
          range'_glue _ _ _ (by omega) (by omega)]

theorem exor_yield_nonempty (junk : Nat → Nat) (S : List Nat) (K : Nat) (hS : S ≠ [])
    (hK : K ≤ 255) :
    exor_yield junk S K = ⟨Term.schedule
      { bin := S, val := K, max_per_slice := 4194304, offset := 0,
        res := (List.range S.length).map junk, yields := 0 }, [Event.alloc S.length]⟩ := by
  unfold exor_yield
  rw [enif_get_uint_of_le hK]
  simp only []
  rw [if_neg (by omega), if_neg (by simpa using hS)]

theorem taskInv_initial (junk : Nat → Nat) (S : List Nat) (K : Nat) (hS : S ≠ []) :
    TaskInv S K
      { bin := S, val := K, max_per_slice := 4194304, offset := 0,
        res := (List.range S.length).map junk, yields := 0 } := by
  refine ⟨rfl, rfl, by simp, ?_, ?_, ?_⟩
  · exact List.length_pos.mpr hS
  · intro j hj
    exact absurd hj (by simp)
  · show toInt32 0 = 0
    decide

/-- A task on a non-empty binary, given a budget of at least `length S`
invocations: result, number of invocations, stores. -/
theorem task_spec (hosts : Nat → Host) (junk : Nat → Nat) (S : List Nat) (K : Nat)
    (hS : S ≠ []) (hK : K ≤ 255) (n : Nat) (hn : S.length ≤ n) :
    (task hosts junk n S K).ret = Term.tuple2 (S.map (fun b => (b ^^^ K) % 256))
        (toInt32 (((task hosts junk n S K).calls : Int) - 1)) ∧
      1 ≤ (task hosts junk n S K).calls ∧
      (task hosts junk n S K).calls ≤ S.length ∧
      stores (task hosts junk n S K).trace = List.range S.length := by
  unfold task
  rw [exor_yield_nonempty junk S K hS hK]
  obtain ⟨h1, h2, h3, h4⟩ := resume_spec hosts S K hK n
    ⟨Term.schedule
      { bin := S, val := K, max_per_slice := 4194304, offset := 0,
        res := (List.range S.length).map junk, yields := 0 }, 0, [Event.alloc S.length]⟩ _ rfl
    (taskInv_initial junk S K hS) (by simpa using hn)
  simp only [] at h1 h2 h3 h4 ⊢
  refine ⟨?_, h2, by omega, ?_⟩
  · rw [h1]; congr 2; simp
  · rw [h4, List.range_eq_range']; simp [stores]

/-- Once the task has returned a final term, further budget changes nothing. -/
theorem resume_stable (hosts : Nat → Host) :
    ∀ (n : Nat) (r : Run), (∀ a, (resume hosts n r).ret ≠ Term.schedule a) →
      ∀ m, n ≤ m → resume hosts m r = resume hosts n r := by
  intro n
  induction n with
  | zero =>
    intro r h m _
    rw [resume] at h ⊢
    exact resume_final hosts m r h
  | succ n ih =>
    intro r h m hm
    obtain ⟨m, rfl⟩ : ∃ k, m = k + 1 := ⟨m - 1, by omega⟩
    rw [resume] at h ⊢
    rw [resume]
    split
    · rename_i a ha
      simp only [ha] at h
      exact ih _ h m (by omega)
    · rfl

theorem task_stable (hosts : Nat → Host) (junk : Nat → Nat) (S : List Nat) (K : Nat)
    (hS : S ≠ []) (hK : K ≤ 255) (m : Nat) (hm : S.length ≤ m) :
    task hosts junk m S K = task hosts junk S.length S K := by
  have h := (task_spec hosts junk S K hS hK S.length (Nat.le_refl _)).1
  unfold task at h ⊢
  apply resume_stable hosts S.length _ _ m hm
  intro a
  rw [h]
  exact fun h => Term.noConfusion h

theorem exor2_cases (host : Host) (argv : Argv) :
    (255 < argv.val ∧ exor2 host argv = ⟨Term.badarg, []⟩) ∨
    (argv.val ≤ 255 ∧ Exit host argv argv.val (exor2 host argv)) := by
  by_cases h : 255 < argv.val
  · exact Or.inl ⟨h, exor2_badarg host argv h⟩
  · exact Or.inr ⟨by omega, exor2_exit host argv (by omega)⟩

/-- A rescheduling invocation: the shape of the new argument list. -/
theorem exor2_schedule_inv (host : Host) (argv a : Argv)
    (h : (exor2 host argv).ret = Term.schedule a) :
    argv.val ≤ 255 ∧ ∃ n res, a = nextArgv host argv (n + 1) a.offset res ∧
      argv.offset < a.offset ∧ a.offset < argv.bin.length ∧
      stores (exor2 host argv).trace = List.range' argv.offset (a.offset - argv.offset) ∧
      consumes (exor2 host argv).trace
        = (List.range (n + 1)).map (fun k => clampPct (pctOf host k)) ∧
      Filled argv.bin argv.val argv.res res argv.offset a.offset ∧
      (host n).exhausted = true ∧ ∀ k, k < n → (host k).exhausted = false := by
  rcases exor2_cases host argv with ⟨_, hb⟩ | ⟨hv, n, i, res, h1, h2, h3, _, h5⟩
  · rw [hb] at h; exact Term.noConfusion h
  · refine ⟨hv, ?_⟩
    rcases h5 with ⟨hr, _⟩ | ⟨hr, hi1, hi2, m, hm, he, hne⟩
    · rw [hr] at h; exact Term.noConfusion h
    · rw [hr] at h
      injection h with h
      subst h
      subst hm
      exact ⟨m, res, rfl, hi1, hi2, h1, h2, h3, he, hne⟩

/-- A finishing invocation: the shape of the result. -/
theorem exor2_finish_inv (host : Host) (argv : Argv) (out : List Nat) (y : Int)
    (h : (exor2 host argv).ret = Term.tuple2 out y) :
    argv.val ≤ 255 ∧ y = argv.yields ∧ ∃ n i res, out = res.take argv.bin.length ∧
      argv.offset ≤ i ∧
      (i = argv.bin.length ∨ (n = 0 ∧ i = argv.offset ∧ argv.bin.length ≤ argv.offset)) ∧
      stores (exor2 host argv).trace = List.range' argv.offset (i - argv.offset) ∧
      consumes (exor2 host argv).trace
        = (List.range n).map (fun k => clampPct (pctOf host k)) ∧
      Filled argv.bin argv.val argv.res res argv.offset i ∧
      ∀ k, k < n → (host k).exhausted = false := by
  rcases exor2_cases host argv with ⟨_, hb⟩ | ⟨hv, n, i, res, h1, h2, h3, h4, h5⟩
  · rw [hb] at h; exact Term.noConfusion h
  · refine ⟨hv, ?_⟩
    rcases h5 with ⟨hr, hne, hi⟩ | ⟨hr, _⟩
    · rw [hr] at h
      injection h with ho hy
      exact ⟨hy.symm, n, i, res, ho.symm, h4, hi, h1, h2, h3, hne⟩
    · rw [hr] at h; exact Term.noConfusion h

/-! ## The claims -/

/-- C1: for every non-empty byte sequence `S`, every key `K` in `[0,255]` and
every sequence of clock readings and host answers, running `exor_yield` and
feeding each rescheduled argument list back into `exor2` until a result is
returned yields an output of the length of `S` whose byte at every index `i`
is `S[i] XOR K`. -/
theorem exor_yield_task_output (hosts : Nat → Host) (junk : Nat → Nat) (S : List Nat) (K : Nat)
    (hS : S ≠ []) (hB : IsBytes S) (hK : K ≤ 255) :
    ∃ (n : Nat) (out : List Nat) (y : Int),
      (∀ m, n ≤ m → (task hosts junk m S K).ret = Term.tuple2 out y) ∧
      out.length = S.length ∧
      ∀ (i b : Nat), S[i]? = some b → out[i]? = some (b ^^^ K) := by
  obtain ⟨h1, _, _, _⟩ := task_spec hosts junk S K hS hK S.length (Nat.le_refl _)
  refine ⟨S.length, S.map (fun b => b ^^^ K),
    toInt32 (((task hosts junk S.length S K).calls : Int) - 1), ?_, by simp, ?_⟩
  · intro m hm
    rw [task_stable hosts junk S K hS hK m hm, h1, map_xor_bytes S K hB hK]
  · intro i b hb
    rw [List.getElem?_map, hb]
    rfl

theorem exor_yield_task_output_witness :
    ([0x00, 0xFF, 0x0F] : List Nat) ≠ [] ∧ IsBytes [0x00, 0xFF, 0x0F] ∧ 0xFF ≤ 255 ∧
    ∃ (n : Nat) (out : List Nat) (y : Int),
      (∀ m, n ≤ m →
        (task (fun _ => busyHost) zeroJunk m [0x00, 0xFF, 0x0F] 0xFF).ret = Term.tuple2 out y) ∧
      out.length = [0x00, 0xFF, 0x0F].length ∧
      ∀ (i b : Nat), ([0x00, 0xFF, 0x0F] : List Nat)[i]? = some b → out[i]? = some (b ^^^ 0xFF) :=
  ⟨by decide, by decide, by decide,
    exor_yield_task_output (fun _ => busyHost) zeroJunk [0x00, 0xFF, 0x0F] 0xFF
      (by decide) (by decide) (by decide)⟩

/-- C2: a rescheduling invocation of `exor2` passes on an offset `o` with
`offset < o < len(S)` and stores exactly at the indices `offset, ..., o - 1`,
once each and in this order; across a task the stores of all invocations
together are exactly `0, ..., len(S) - 1`, once each and in this order (so the
per-invocation ranges are disjoint, consecutive, and their lengths sum to
`len(S)`). -/
theorem exor2_ranges :
    (∀ (host : Host) (argv a : Argv), (exor2 host argv).ret = Term.schedule a →
      argv.offset < a.offset ∧ a.offset < argv.bin.length ∧
      stores (exor2 host argv).trace = List.range' argv.offset (a.offset - argv.offset) ∧
      (stores (exor2 host argv).trace).Nodup) ∧
    (∀ (hosts : Nat → Host) (junk : Nat → Nat) (S : List Nat) (K : Nat), S ≠ [] → K ≤ 255 →
      ∀ n, S.length ≤ n →
        stores (task hosts junk n S K).trace = List.range S.length ∧
        (stores (task hosts junk n S K).trace).length = S.length) := by
  constructor
  · intro host argv a h
    obtain ⟨_, n, res, _, h1, h2, h3, _⟩ := exor2_schedule_inv host argv a h
    refine ⟨h1, h2, h3, ?_⟩
    rw [h3]
    exact List.nodup_range' _ _
  · intro hosts junk S K hS hK n hn
    obtain ⟨_, _, _, h⟩ := task_spec hosts junk S K hS hK n hn
    rw [h]
    exact ⟨rfl, List.length_range _⟩

theorem exor2_busy_argvEx :
    exor2 busyHost argvEx = ⟨Term.schedule argvEx1, [Event.store 0, Event.consume 100]⟩ := by
  have h1 : slicePct ⟨0, 0⟩ ⟨0, 1500⟩ = 150 := by decide
  have h2 : reestimate 1 150 = 1 := by decide
  rw [exor2_eq_whileLoop _ _ (by decide)]
  simp [ULONG_MOD, toInt32, whileLoop, doWhile, busyHost, argvEx, argvEx1, h1, h2, clampPct]

theorem exor2_ranges_witness :
    ((exor2 busyHost argvEx).ret = Term.schedule argvEx1 ∧
      argvEx.offset < argvEx1.offset ∧ argvEx1.offset < argvEx.bin.length ∧
      stores (exor2 busyHost argvEx).trace
        = List.range' argvEx.offset (argvEx1.offset - argvEx.offset) ∧
      (stores (exor2 busyHost argvEx).trace).Nodup) ∧
    (([0x00, 0xFF, 0x0F] : List Nat) ≠ [] ∧ 0xFF ≤ 255 ∧
      ([0x00, 0xFF, 0x0F] : List Nat).length ≤ 3 ∧
      stores (task (fun _ => busyHost) zeroJunk 3 [0x00, 0xFF, 0x0F] 0xFF).trace
        = List.range ([0x00, 0xFF, 0x0F] : List Nat).length ∧
      (stores (task (fun _ => busyHost) zeroJunk 3 [0x00, 0xFF, 0x0F] 0xFF).trace).length
        = ([0x00, 0xFF, 0x0F] : List Nat).length) :=
  ⟨⟨by rw [exor2_busy_argvEx],
     exor2_ranges.1 busyHost argvEx argvEx1 (by rw [exor2_busy_argvEx])⟩,
   ⟨by decide, by decide, by decide,
     exor2_ranges.2 (fun _ => busyHost) zeroJunk [0x00, 0xFF, 0x0F] 0xFF (by decide) (by decide)
       3 (by decide)⟩⟩

/-- C3: for every non-empty `S`, key `K` in `[0,255]` and every sequence of
clock readings and host answers, the chain of `exor2` invocations started by
`exor_yield` has reached a final, non-rescheduling result within a budget of
`len(S)` invocations (it made at least one and at most `len(S)` of them, and a
larger budget changes nothing); this holds whatever `max_per_slice` is passed
on (0 included), because every invocation with `offset < len(S)` stores at
least the byte at `offset`. -/
theorem exor_yield_terminates :
    (∀ (hosts : Nat → Host) (junk : Nat → Nat) (S : List Nat) (K : Nat), S ≠ [] → K ≤ 255 →
      (∃ out y, (task hosts junk S.length S K).ret = Term.tuple2 out y) ∧
      1 ≤ (task hosts junk S.length S K).calls ∧
      (task hosts junk S.length S K).calls ≤ S.length ∧
      ∀ m, S.length ≤ m → task hosts junk m S K = task hosts junk S.length S K) ∧
    (∀ (host : Host) (argv : Argv), argv.val ≤ 255 → argv.offset < argv.bin.length →
      ∃ l, stores (exor2 host argv).trace = argv.offset :: l) := by
  constructor
  · intro hosts junk S K hS hK
    obtain ⟨h1, h2, h3, _⟩ := task_spec hosts junk S K hS hK S.length (Nat.le_refl _)
    exact ⟨⟨_, _, h1⟩, h2, h3, fun m hm => task_stable hosts junk S K hS hK m hm⟩
  · intro host argv hv ho
    obtain ⟨n, i, res, h1, _, _, h4, h5⟩ := exor2_exit host argv hv
    have hi : argv.offset < i := by
      rcases h5 with ⟨_, _, hi⟩ | ⟨_, hi, _⟩
      · omega
      · exact hi
    obtain ⟨k, hk⟩ : ∃ k, i - argv.offset = k + 1 := ⟨i - argv.offset - 1, by omega⟩
    rw [h1, hk, List.range'_succ]
    exact ⟨_, rfl⟩

theorem exor_yield_terminates_witness :
    (([0x00, 0xFF, 0x0F] : List Nat) ≠ [] ∧ 0xFF ≤ 255 ∧
      (∃ out y, (task (fun _ => busyHost) zeroJunk ([0x00, 0xFF, 0x0F] : List Nat).length
        [0x00, 0xFF, 0x0F] 0xFF).ret = Term.tuple2 out y) ∧
      1 ≤ (task (fun _ => busyHost) zeroJunk ([0x00, 0xFF, 0x0F] : List Nat).length
        [0x00, 0xFF, 0x0F] 0xFF).calls ∧
      (task (fun _ => busyHost) zeroJunk ([0x00, 0xFF, 0x0F] : List Nat).length
        [0x00, 0xFF, 0x0F] 0xFF).calls ≤ ([0x00, 0xFF, 0x0F] : List Nat).length) ∧
    (argvZero.val ≤ 255 ∧ argvZero.offset < argvZero.bin.length ∧
      ∃ l, stores (exor2 busyHost argvZero).trace = argvZero.offset :: l) :=
  ⟨⟨by decide, by decide,
      (exor_yield_terminates.1 (fun _ => busyHost) zeroJunk [0x00, 0xFF, 0x0F] 0xFF
        (by decide) (by decide)).1,
      (exor_yield_terminates.1 (fun _ => busyHost) zeroJunk [0x00, 0xFF, 0x0F] 0xFF
        (by decide) (by decide)).2.1,
      (exor_yield_terminates.1 (fun _ => busyHost) zeroJunk [0x00, 0xFF, 0x0F] 0xFF
        (by decide) (by decide)).2.2.1⟩,
    ⟨by decide, by decide,
      exor_yield_terminates.2 busyHost argvZero (by decide) (by decide)⟩⟩

/-- C4: the progress-buffer invariant is preserved by `exor2`.  If on entry
`buffer[j] = S[j] XOR K` for every `j < offset` (with `offset ≤ len(S)` and a
buffer of length `len(S)`), then after a rescheduling invocation with new
offset `o` this holds for every `j < o`, and after a finishing invocation for
every `j < len(S)`; in both cases the bytes at the indices below the entry
offset are the ones found on entry, and the invocation stores at no index
below the entry offset. -/
theorem exor2_preserves_progress (host : Host) (argv : Argv) (hB : IsBytes argv.bin)
    (hlen : argv.res.length = argv.bin.length) (hoff : argv.offset ≤ argv.bin.length)
    (hpre : ∀ (j b : Nat), j < argv.offset → argv.bin[j]? = some b →
      argv.res[j]? = some (b ^^^ argv.val)) :
    (∀ a, (exor2 host argv).ret = Term.schedule a →
      (∀ (j b : Nat), j < a.offset → argv.bin[j]? = some b → a.res[j]? = some (b ^^^ argv.val)) ∧
      (∀ (j : Nat), j < argv.offset → a.res[j]? = argv.res[j]?) ∧
      a.res.length = argv.bin.length) ∧
    (∀ out y, (exor2 host argv).ret = Term.tuple2 out y →
      (∀ (j b : Nat), argv.bin[j]? = some b → out[j]? = some (b ^^^ argv.val)) ∧
      (∀ (j : Nat), j < argv.offset → out[j]? = argv.res[j]?) ∧
      out.length = argv.bin.length) ∧
    (∀ (j : Nat), j ∈ stores (exor2 host argv).trace → argv.offset ≤ j) := by
  rcases exor2_cases host argv with ⟨_, hbad⟩ | ⟨hv, hexit⟩
  · refine ⟨?_, ?_, ?_⟩
    · intro a h; rw [hbad] at h; exact Term.noConfusion h
    · intro out y h; rw [hbad] at h; exact Term.noConfusion h
    · intro j hj; rw [hbad] at hj; exact absurd hj (List.not_mem_nil j)
  -- the byte stored at `j` is `S[j] XOR K`
  have hx : ∀ (j b : Nat), argv.bin[j]? = some b →
      xorAt argv.bin argv.val j = b ^^^ argv.val := by
    intro j b hb
    have h1 : b < 2 ^ 8 := hB b (List.getElem?_mem hb)
    have h2 : argv.val < 2 ^ 8 := by omega
    unfold xorAt
    rw [List.getD_eq_getElem?_getD, hb]
    exact Nat.mod_eq_of_lt (Nat.xor_lt_two_pow h1 h2)
  have hpre' : ∀ j, j < argv.offset → argv.res[j]? = some (xorAt argv.bin argv.val j) := by
    intro j hj
    have hb : argv.bin[j]? = some argv.bin[j] :=
      List.getElem?_eq_getElem (by omega : j < argv.bin.length)
    rw [hx j _ hb]; exact hpre j _ hj hb
  refine ⟨?_, ?_, ?_⟩
  rotate_left 2
  · obtain ⟨n, i, res, h1, _⟩ := hexit
    intro j hj
    rw [h1] at hj
    exact (List.mem_range'_1.mp hj).1
  · intro a h
    obtain ⟨_, n, res, ha, _, h2, _, _, hf, _⟩ := exor2_schedule_inv host argv a h
    have hres : a.res = res := by rw [ha]; rfl
    rw [hres]
    refine ⟨?_, hf.below, ?_⟩
    · intro j b hj hb
      rw [← hx j b hb]
      exact hf.done hpre' (by omega) j hj
    · rw [hf.length_eq, hlen]
  · intro out y h
    obtain ⟨_, _, n, i, res, ho, _, hi, _, _, hf, _⟩ := exor2_finish_inv host argv out y h
    have hi' : i = argv.bin.length := by
      rcases hi with hi | ⟨_, h1, h2⟩
      · exact hi
      · omega
    subst hi'
    have hl : res.length = argv.bin.length := by rw [hf.length_eq, hlen]
    have ht : out = res := by rw [ho, ← hl, List.take_length]
    rw [ht]
    refine ⟨?_, hf.below, hl⟩
    intro j b hb
    have hj : j < argv.bin.length := by
      rcases List.getElem?_eq_some.mp hb with ⟨hj, _⟩
      exact hj
    rw [← hx j b hb]
    exact hf.done hpre' (by omega) j hj

theorem exor2_busy_argvEx1 :
    exor2 busyHost argvEx1 = ⟨Term.schedule argvEx2, [Event.store 1, Event.consume 100]⟩ := by
  have h1 : slicePct ⟨0, 0⟩ ⟨0, 1500⟩ = 150 := by decide
  have h2 : reestimate 1 150 = 1 := by decide
  rw [exor2_eq_whileLoop _ _ (by decide)]
  simp [ULONG_MOD, toInt32, whileLoop, doWhile, busyHost, argvEx1, argvEx2, h1, h2, clampPct]

theorem exor2_idle_argvEx1 :
    exor2 idleHost argvEx1 = ⟨Term.tuple2 [0xFF, 0x00, 0xF0] 1,
      [Event.store 1, Event.consume 5, Event.store 2]⟩ := by
  have h1 : slicePct ⟨0, 0⟩ ⟨0, 50⟩ = 5 := by decide
  rw [exor2_eq_whileLoop _ _ (by decide)]
  simp [ULONG_MOD, toInt32, whileLoop, doWhile, idleHost, argvEx1, h1, clampPct, finish]

theorem argvEx1_pre : ∀ (j b : Nat), j < argvEx1.offset → argvEx1.bin[j]? = some b →
    argvEx1.res[j]? = some (b ^^^ argvEx1.val) := by
  intro j b hj hb
  have hj0 : j = 0 := by
    have : j < 1 := hj
    omega
  subst hj0
  have hb' : b = 0 := by
    have : (some 0 : Option Nat) = some b := hb
    injection this with this
    exact this.symm
  subst hb'
  decide

theorem exor2_preserves_progress_witness :
    IsBytes argvEx1.bin ∧ argvEx1.res.length = argvEx1.bin.length ∧
    argvEx1.offset ≤ argvEx1.bin.length ∧
    (∀ (j b : Nat), j < argvEx1.offset → argvEx1.bin[j]? = some b →
      argvEx1.res[j]? = some (b ^^^ argvEx1.val)) ∧
    ((exor2 busyHost argvEx1).ret = Term.schedule argvEx2 ∧
      (∀ (j b : Nat), j < argvEx2.offset → argvEx1.bin[j]? = some b →
        argvEx2.res[j]? = some (b ^^^ argvEx1.val)) ∧
      (∀ (j : Nat), j < argvEx1.offset → argvEx2.res[j]? = argvEx1.res[j]?) ∧
      argvEx2.res.length = argvEx1.bin.length) ∧
    ((exor2 idleHost argvEx1).ret = Term.tuple2 [0xFF, 0x00, 0xF0] 1 ∧
      (∀ (j b : Nat), argvEx1.bin[j]? = some b →
        ([0xFF, 0x00, 0xF0] : List Nat)[j]? = some (b ^^^ argvEx1.val)) ∧
      (∀ (j : Nat), j < argvEx1.offset →
        ([0xFF, 0x00, 0xF0] : List Nat)[j]? = argvEx1.res[j]?) ∧
      ([0xFF, 0x00, 0xF0] : List Nat).length = argvEx1.bin.length) ∧
    (∀ (j : Nat), j ∈ stores (exor2 idleHost argvEx1).trace → argvEx1.offset ≤ j) :=
  ⟨by decide, by decide, by decide, argvEx1_pre,
    ⟨by rw [exor2_busy_argvEx1],
      (exor2_preserves_progress busyHost argvEx1 (by decide) (by decide) (by decide)
        argvEx1_pre).1 argvEx2 (by rw [exor2_busy_argvEx1])⟩,
    ⟨by rw [exor2_idle_argvEx1],
      (exor2_preserves_progress idleHost argvEx1 (by decide) (by decide) (by decide)
        argvEx1_pre).2.1 _ _ (by rw [exor2_idle_argvEx1])⟩,
    (exor2_preserves_progress idleHost argvEx1 (by decide) (by decide) (by decide)
      argvEx1_pre).2.2⟩

/-- When the first slice of an invocation reaches the end of the binary, the
invocation finishes right after the inner loop: no clock reading is used and
the host is not asked. -/
theorem exor2_first_slice_finish (host : Host) (argv : Argv) (hv : argv.val ≤ 255)
    (ho : argv.offset < argv.bin.length)
    (he : max (if (argv.offset + argv.max_per_slice) % ULONG_MOD > argv.bin.length
        then argv.bin.length else (argv.offset + argv.max_per_slice) % ULONG_MOD)
      (argv.offset + 1) = argv.bin.length) :
    exor2 host argv = finish argv
      (doWhile argv.bin argv.val
        (if (argv.offset + argv.max_per_slice) % ULONG_MOD > argv.bin.length
          then argv.bin.length else (argv.offset + argv.max_per_slice) % ULONG_MOD)
        argv.res [] argv.offset).1
      ((List.range' argv.offset (argv.bin.length - argv.offset)).map Event.store) := by
  rw [exor2_eq_whileLoop host argv hv, whileLoop]
  simp only []
  obtain ⟨d1, d2, _⟩ := doWhile_spec argv.bin argv.val
    (if (argv.offset + argv.max_per_slice) % ULONG_MOD > argv.bin.length
      then argv.bin.length else (argv.offset + argv.max_per_slice) % ULONG_MOD)
    argv.res [] argv.offset
  rw [he] at d1 d2
  rw [if_pos ho, if_pos d1, d2, List.nil_append]

/-- C6: for every non-empty `S` with `len(S) ≤ 4194304` (the initial
`max_per_slice` set by `exor_yield`) and every `K` in `[0,255]`, the task
finishes in the first `exor2` invocation with yield count 0 and the
transformed binary, whatever the clock readings and host answers would be:
`enif_consume_timeslice` is never called. -/
theorem exor_yield_single_slice (hosts : Nat → Host) (junk : Nat → Nat) (S : List Nat) (K : Nat)
    (hS : S ≠ []) (hlen : S.length ≤ 4194304) (hB : IsBytes S) (hK : K ≤ 255) :
    (task hosts junk 1 S K).ret = Term.tuple2 (S.map (fun b => b ^^^ K)) 0 ∧
    (task hosts junk 1 S K).calls = 1 ∧
    consumes (task hosts junk 1 S K).trace = [] ∧
    ∀ n, 1 ≤ n → task hosts junk n S K = task hosts junk 1 S K := by
  have hpos : 0 < S.length := List.length_pos.mpr hS
  have hfin := exor2_first_slice_finish (hosts 0)
    { bin := S, val := K, max_per_slice := 4194304, offset := 0,
      res := (List.range S.length).map junk, yields := 0 } hK hpos
    (by
      simp only [ULONG_MOD, Nat.zero_add]
      have : 4194304 % 2 ^ 64 = 4194304 := by decide
      rw [this]
      split <;> omega)
  have hstep := exor2_step (hosts 0) S K hK _ (taskInv_initial junk S K hS)
  have hret : (exor2 (hosts 0)
      { bin := S, val := K, max_per_slice := 4194304, offset := 0,
        res := (List.range S.length).map junk, yields := 0 }).ret
      = Term.tuple2 (S.map (fun b => b ^^^ K)) 0 := by
    rcases hstep with ⟨h1, _⟩ | ⟨a, h1, _⟩
    · rw [h1, map_xor_bytes S K hB hK]
    · rw [hfin] at h1; exact Term.noConfusion h1
  have htask : task hosts junk 1 S K = ⟨Term.tuple2 (S.map (fun b => b ^^^ K)) 0, 1,
      [Event.alloc S.length] ++ (List.range' 0 (S.length - 0)).map Event.store⟩ := by
    unfold task
    rw [exor_yield_nonempty junk S K hS hK, resume]
    simp only []
    rw [resume, hret]
    rw [hfin]
    rfl
  refine ⟨?_, ?_, ?_, ?_⟩
  · rw [htask]
  · rw [htask]
  · rw [htask, consumes_append, consumes_map_store]; rfl
  · intro n hn
    unfold task
    apply resume_stable hosts 1 _ _ n hn
    have h := htask
    unfold task at h
    rw [h]
    intro a
    exact fun h => Term.noConfusion h

theorem exor_yield_single_slice_witness :
    ([0x00, 0xFF, 0x0F] : List Nat) ≠ [] ∧ ([0x00, 0xFF, 0x0F] : List Nat).length ≤ 4194304 ∧
    IsBytes [0x00, 0xFF, 0x0F] ∧ 0xFF ≤ 255 ∧
    (task (fun _ => busyHost) zeroJunk 1 [0x00, 0xFF, 0x0F] 0xFF).ret
      = Term.tuple2 [0xFF, 0x00, 0xF0] 0 ∧
    (task (fun _ => busyHost) zeroJunk 1 [0x00, 0xFF, 0x0F] 0xFF).calls = 1 ∧
    consumes (task (fun _ => busyHost) zeroJunk 1 [0x00, 0xFF, 0x0F] 0xFF).trace = [] :=
  ⟨by decide, by decide, by decide, by decide,
    (exor_yield_single_slice (fun _ => busyHost) zeroJunk [0x00, 0xFF, 0x0F] 0xFF
      (by decide) (by decide) (by decide) (by decide)).1.trans (by decide),
    (exor_yield_single_slice (fun _ => busyHost) zeroJunk [0x00, 0xFF, 0x0F] 0xFF
      (by decide) (by decide) (by decide) (by decide)).2.1,
    (exor_yield_single_slice (fun _ => busyHost) zeroJunk [0x00, 0xFF, 0x0F] 0xFF
      (by decide) (by decide) (by decide) (by decide)).2.2.1⟩

/-- C7: for every byte sequence `S` (the empty one included) and every
unsigned key value `K`, the entry call `exor_yield` returns the
invalid-argument signal if and only if `K > 255`; when it does, no buffer is
allocated and no `exor2` invocation takes place. -/
theorem exor_yield_badarg_iff (junk : Nat → Nat) (S : List Nat) (K : Nat) :
    ((exor_yield junk S K).ret = Term.badarg ↔ 255 < K) ∧
    (255 < K → (exor_yield junk S K).trace = [] ∧
      ∀ (hosts : Nat → Host) (n : Nat), task hosts junk n S K = ⟨Term.badarg, 0, []⟩) := by
  have hbad : 255 < K → exor_yield junk S K = ⟨Term.badarg, []⟩ := by
    intro hK
    unfold exor_yield enif_get_uint
    split
    · rfl
    · rename_i v h
      split at h
      · injection h with h
        subst h
        rw [if_pos hK]
      · exact absurd h (by simp)
  constructor
  · constructor
    · intro h
      by_cases hK : K ≤ 255
      · exfalso
        unfold exor_yield at h
        rw [enif_get_uint_of_le hK] at h
        simp only [] at h
        rw [if_neg (by omega)] at h
        split at h <;> exact Term.noConfusion h
      · omega
    · intro hK
      rw [hbad hK]
  · intro hK
    refine ⟨by rw [hbad hK], ?_⟩
    intro hosts n
    unfold task
    rw [hbad hK]
    exact resume_final hosts n _ (fun a h => Term.noConfusion h)

theorem exor_yield_badarg_iff_witness :
    255 < 256 ∧ (exor_yield zeroJunk [0x00, 0xFF, 0x0F] 256).ret = Term.badarg ∧
    (exor_yield zeroJunk [0x00, 0xFF, 0x0F] 256).trace = [] ∧
    ∀ (hosts : Nat → Host) (n : Nat),
      task hosts zeroJunk n [0x00, 0xFF, 0x0F] 256 = ⟨Term.badarg, 0, []⟩ :=
  ⟨by decide,
    (exor_yield_badarg_iff zeroJunk [0x00, 0xFF, 0x0F] 256).1.mpr (by decide),
    ((exor_yield_badarg_iff zeroJunk [0x00, 0xFF, 0x0F] 256).2 (by decide)).1,
    ((exor_yield_badarg_iff zeroJunk [0x00, 0xFF, 0x0F] 256).2 (by decide)).2⟩

/-- C8: for the empty byte sequence and every `K` in `[0,255]`, `exor_yield`
returns at once, without allocating a buffer and without any `exor2`
invocation, and the bytes it returns are those of the input. -/
theorem exor_yield_empty (junk : Nat → Nat) (K : Nat) (hK : K ≤ 255) :
    exor_yield junk [] K = ⟨Term.binary [], []⟩ ∧
    ∀ (hosts : Nat → Host) (n : Nat), task hosts junk n [] K = ⟨Term.binary [], 0, []⟩ := by
  have h : exor_yield junk [] K = ⟨Term.binary [], []⟩ := by
    unfold exor_yield
    rw [enif_get_uint_of_le hK]
    simp only []
    rw [if_neg (by omega)]
    rfl
  refine ⟨h, ?_⟩
  intro hosts n
  unfold task
  rw [h]
  exact resume_final hosts n _ (fun a h => Term.noConfusion h)

theorem exor_yield_empty_witness :
    0x42 ≤ 255 ∧ exor_yield zeroJunk [] 0x42 = ⟨Term.binary [], []⟩ ∧
    ∀ (hosts : Nat → Host) (n : Nat), task hosts zeroJunk n [] 0x42 = ⟨Term.binary [], 0, []⟩ :=
  ⟨by decide, exor_yield_empty zeroJunk 0x42 (by decide)⟩

/-- C9, the code at the failing input: on the empty binary with key `0x42`
the entry call `exor_yield` returns the bare binary `argv[0]`, not a pair of
an output and a yield count. -/
theorem exor_yield_empty_not_pair :
    (exor_yield zeroJunk [] 0x42).ret = Term.binary [] ∧
    ∀ (out : List Nat) (y : Int), (exor_yield zeroJunk [] 0x42).ret ≠ Term.tuple2 out y := by
  have h : (exor_yield zeroJunk [] 0x42).ret = Term.binary [] := by decide
  refine ⟨h, ?_⟩
  intro out y
  rw [h]
  exact fun h => Term.noConfusion h

/-! ## Re-estimation of the slice budget -/

/-- The arithmetic of lines 89-96 in mathematical terms.  Only the branch
`m == 1` computes in the `unsigned long` word in a way that can wrap, so only
that branch needs a bound. -/
theorem reestimate_formula (p : Nat) (c : Int) :
    (c ≤ 100 → reestimate p c = p) ∧
    (c / 100 = 1 → p * (c - 100).toNat < 2 ^ 64 →
      reestimate p c = p - p * (c - 100).toNat / 100) ∧
    (1 < c / 100 → c < 2 ^ 31 → reestimate p c = p / (c / 100).toNat) := by
  refine ⟨?_, ?_, ?_⟩
  · intro h
    unfold reestimate
    rw [if_neg (by omega)]
  · intro h hp
    unfold reestimate
    by_cases hc : c > 100
    · rw [if_pos hc]
      have h0 : (0 : Int) ≤ c := by omega
      have htd : c.tdiv 100 = 1 := by rw [Int.tdiv_eq_ediv h0 (by decide)]; exact h
      have hm : toInt32 (c.tdiv 100) = 1 := by rw [htd]; decide
      simp only [hm, if_true]
      have hk : toULong (c - 100) = (c - 100).toNat := by
        unfold toULong
        congr 1
        omega
      rw [hk]
      have hk1 : 1 ≤ (c - 100).toNat := by omega
      have hk2 : (c - 100).toNat ≤ 99 := by omega
      have hq1 : p * 1 ≤ p * (c - 100).toNat := Nat.mul_le_mul_left p hk1
      have hq2 : p * (c - 100).toNat ≤ p * 99 := Nat.mul_le_mul_left p hk2
      generalize p * (c - 100).toNat = q at hp hq1 hq2 ⊢
      unfold ULONG_MOD
      rw [Nat.mod_eq_of_lt hp]
      omega
    · rw [if_neg hc]
      have : c = 100 := by omega
      subst this
      simp
  · intro h hc
    unfold reestimate
    rw [if_pos (by omega)]
    have h0 : (0 : Int) ≤ c := by omega
    have htd : c.tdiv 100 = c / 100 := Int.tdiv_eq_ediv h0 (by decide)
    have hm : toInt32 (c.tdiv 100) = c / 100 := by
      rw [htd]; unfold toInt32; omega
    simp only [hm]
    rw [if_neg (by omega)]
    congr 1
    unfold toULong
    congr 1
    omega

/-- When the first slice of an invocation ends before the end of the binary
and the host reports the timeslice as used up, the invocation reschedules
right there. -/
theorem exor2_first_slice_yield (host : Host) (argv : Argv) (hv : argv.val ≤ 255)
    (ho : argv.offset < argv.bin.length)
    (he : max (if (argv.offset + argv.max_per_slice) % ULONG_MOD > argv.bin.length
        then argv.bin.length else (argv.offset + argv.max_per_slice) % ULONG_MOD)
      (argv.offset + 1) ≠ argv.bin.length)
    (hx : (host 0).exhausted = true) :
    ∃ res, exor2 host argv = ⟨Term.schedule
      { bin := argv.bin, val := argv.val,
        max_per_slice := reestimate
          (max (if (argv.offset + argv.max_per_slice) % ULONG_MOD > argv.bin.length
              then argv.bin.length else (argv.offset + argv.max_per_slice) % ULONG_MOD)
            (argv.offset + 1) - argv.offset)
          (toInt32 (slicePct (host 0).start (host 0).stop)),
        offset := max (if (argv.offset + argv.max_per_slice) % ULONG_MOD > argv.bin.length
              then argv.bin.length else (argv.offset + argv.max_per_slice) % ULONG_MOD)
            (argv.offset + 1),
        res := res, yields := toInt32 (argv.yields + 1) },
      (List.range' argv.offset
        (max (if (argv.offset + argv.max_per_slice) % ULONG_MOD > argv.bin.length
              then argv.bin.length else (argv.offset + argv.max_per_slice) % ULONG_MOD)
            (argv.offset + 1) - argv.offset)).map Event.store
        ++ [Event.consume (clampPct (slicePct (host 0).start (host 0).stop))]⟩ := by
  rw [exor2_eq_whileLoop host argv hv, whileLoop]
  simp only []
  obtain ⟨d1, d2, _⟩ := doWhile_spec argv.bin argv.val
    (if (argv.offset + argv.max_per_slice) % ULONG_MOD > argv.bin.length
      then argv.bin.length else (argv.offset + argv.max_per_slice) % ULONG_MOD)
    argv.res [] argv.offset
  rw [← d1] at he
  rw [if_pos ho, if_neg he, if_pos hx, d2, List.nil_append, d1, Int.zero_add]
  exact ⟨_, rfl⟩

theorem cumulative_range (host : Host) (n : Nat) :
    -2 ^ 31 ≤ cumulative host n ∧ cumulative host n < 2 ^ 31 := by
  cases n with
  | zero =>
    show -2 ^ 31 ≤ (0 : Int) ∧ (0 : Int) < 2 ^ 31
    decide
  | succ n => exact toInt32_range _

/-- C10: when `exor2` reschedules (on a binary that fits a 64-bit address
space: fewer than `2^57` bytes), with `p` = new offset minus entry offset and
`c` = the value of the `int` `total`, the `max_per_slice` it passes on is `p`
if `c ≤ 100`; it is `p - (p * (c - 100)) / 100` (integer division) if
`floor(c / 100) = 1`; and it is `p / floor(c / 100)` (integer division) if
`floor(c / 100) > 1`. -/
theorem exor2_next_budget (host : Host) (argv a : Argv) (hlen : argv.bin.length < 2 ^ 57)
    (h : (exor2 host argv).ret = Term.schedule a) :
    (cumulative host (consumes (exor2 host argv).trace).length ≤ 100 →
      a.max_per_slice = a.offset - argv.offset) ∧
    (cumulative host (consumes (exor2 host argv).trace).length / 100 = 1 →
      a.max_per_slice = (a.offset - argv.offset) - (a.offset - argv.offset)
        * (cumulative host (consumes (exor2 host argv).trace).length - 100).toNat / 100) ∧
    (1 < cumulative host (consumes (exor2 host argv).trace).length / 100 →
      a.max_per_slice = (a.offset - argv.offset)
        / (cumulative host (consumes (exor2 host argv).trace).length / 100).toNat) := by
  obtain ⟨_, n, res, ha, _, hoff, _, hc, _⟩ := exor2_schedule_inv host argv a h
  have hlen2 : (consumes (exor2 host argv).trace).length = n + 1 := by
    rw [hc, List.length_map, List.length_range]
  have hm : a.max_per_slice = reestimate (a.offset - argv.offset) (cumulative host (n + 1)) := by
    conv => lhs; rw [ha]
    rfl
  rw [hlen2, hm]
  obtain ⟨f1, f2, f3⟩ := reestimate_formula (a.offset - argv.offset) (cumulative host (n + 1))
  refine ⟨f1, ?_, ?_⟩
  · intro h1
    apply f2 h1
    have hk : (cumulative host (n + 1) - 100).toNat ≤ 99 := by omega
    have hq : (a.offset - argv.offset) * (cumulative host (n + 1) - 100).toNat
        ≤ (a.offset - argv.offset) * 99 := Nat.mul_le_mul_left _ hk
    generalize (a.offset - argv.offset) * (cumulative host (n + 1) - 100).toNat = q at hq
    omega
  · intro h1
    exact f3 h1 (cumulative_range host (n + 1)).2

theorem exor2_quick_argvTwo :
    exor2 quickHost argvTwo = ⟨Term.schedule argvTwoQuick,
      [Event.store 0, Event.store 1, Event.consume 5]⟩ := by
  have h1 : slicePct ⟨0, 0⟩ ⟨0, 50⟩ = 5 := by decide
  have h2 : reestimate 2 5 = 2 := by decide
  rw [exor2_eq_whileLoop _ _ (by decide)]
  simp [ULONG_MOD, toInt32, whileLoop, doWhile, quickHost, argvTwo, argvTwoQuick, h1, h2, clampPct]

theorem exor2_slow_argvTwo :
    exor2 slowHost argvTwo = ⟨Term.schedule argvTwoSlow,
      [Event.store 0, Event.store 1, Event.consume 100]⟩ := by
  have h1 : slicePct ⟨0, 0⟩ ⟨0, 2500⟩ = 250 := by decide
  have h2 : reestimate 2 250 = 1 := by decide
  rw [exor2_eq_whileLoop _ _ (by decide)]
  simp [ULONG_MOD, toInt32, whileLoop, doWhile, slowHost, argvTwo, argvTwoSlow, h1, h2, clampPct]

theorem exor2_next_budget_witness :
    (argvTwo.bin.length < 2 ^ 57 ∧
      (exor2 quickHost argvTwo).ret = Term.schedule argvTwoQuick ∧
      cumulative quickHost (consumes (exor2 quickHost argvTwo).trace).length = 5 ∧
      (5 : Int) ≤ 100 ∧
      argvTwoQuick.max_per_slice = argvTwoQuick.offset - argvTwo.offset) ∧
    (argvEx.bin.length < 2 ^ 57 ∧
      (exor2 busyHost argvEx).ret = Term.schedule argvEx1 ∧
      cumulative busyHost (consumes (exor2 busyHost argvEx).trace).length = 150 ∧
      (150 : Int) / 100 = 1 ∧
      argvEx1.max_per_slice = (argvEx1.offset - argvEx.offset)
        - (argvEx1.offset - argvEx.offset) * ((150 : Int) - 100).toNat / 100) ∧
    (argvTwo.bin.length < 2 ^ 57 ∧
      (exor2 slowHost argvTwo).ret = Term.schedule argvTwoSlow ∧
      cumulative slowHost (consumes (exor2 slowHost argvTwo).trace).length = 250 ∧
      1 < (250 : Int) / 100 ∧
      argvTwoSlow.max_per_slice
        = (argvTwoSlow.offset - argvTwo.offset) / ((250 : Int) / 100).toNat) :=
  have hq : cumulative quickHost (consumes (exor2 quickHost argvTwo).trace).length = 5 := by
    rw [exor2_quick_argvTwo]; decide
  have hc : cumulative busyHost (consumes (exor2 busyHost argvEx).trace).length = 150 := by
    rw [exor2_busy_argvEx]; decide
  have hs : cumulative slowHost (consumes (exor2 slowHost argvTwo).trace).length = 250 := by
    rw [exor2_slow_argvTwo]; decide
  ⟨⟨by decide, by rw [exor2_quick_argvTwo], hq, by decide,
      (exor2_next_budget quickHost argvTwo argvTwoQuick (by decide)
        (by rw [exor2_quick_argvTwo])).1 (by rw [hq]; decide)⟩,
    ⟨by decide, by rw [exor2_busy_argvEx], hc, by decide,
      hc ▸ (exor2_next_budget busyHost argvEx argvEx1 (by decide)
        (by rw [exor2_busy_argvEx])).2.1 (by rw [hc]; decide)⟩,
    ⟨by decide, by rw [exor2_slow_argvTwo], hs, by decide,
      hs ▸ (exor2_next_budget slowHost argvTwo argvTwoSlow (by decide)
        (by rw [exor2_slow_argvTwo])).2.2 (by rw [hs]; decide)⟩⟩

/-- C11: estimator bound.  For every `p` with `p * 99` inside the `unsigned
long` word and every cumulative percentage `c > 100` (an `int`), the
re-estimated `max_per_slice` computed by `exor2` is at most `p`, and in the
branch `m == 1` the amount subtracted is at most `p` (no underflow); the same
for the budget a rescheduling `exor2` passes on. -/
theorem reestimate_le :
    (∀ (p : Nat) (c : Int), p * 99 < 2 ^ 64 → 100 < c → c < 2 ^ 31 →
      reestimate p c ≤ p ∧
      (c / 100 = 1 → (p * toULong (c - 100)) % ULONG_MOD / 100 ≤ p)) ∧
    (∀ (host : Host) (argv a : Argv), (exor2 host argv).ret = Term.schedule a →
      (a.offset - argv.offset) * 99 < 2 ^ 64 →
      100 < cumulative host (consumes (exor2 host argv).trace).length →
      cumulative host (consumes (exor2 host argv).trace).length < 2 ^ 31 →
      a.max_per_slice ≤ a.offset - argv.offset) := by
  have key : ∀ (p : Nat) (c : Int), p * 99 < 2 ^ 64 → 100 < c → c < 2 ^ 31 →
      reestimate p c ≤ p ∧
      (c / 100 = 1 → (p * toULong (c - 100)) % ULONG_MOD / 100 ≤ p) := by
    intro p c hp hc hi
    obtain ⟨_, f2, f3⟩ := reestimate_formula p c
    constructor
    · by_cases h1 : c / 100 = 1
      · have hk : (c - 100).toNat ≤ 99 := by omega
        have hq : p * (c - 100).toNat ≤ p * 99 := Nat.mul_le_mul_left p hk
        rw [f2 h1 (by omega)]
        exact Nat.sub_le _ _
      · rw [f3 (by omega) hi]
        exact Nat.div_le_self _ _
    · intro h1
      have hk : toULong (c - 100) = (c - 100).toNat := by
        unfold toULong
        congr 1
        omega
      have hk2 : (c - 100).toNat ≤ 99 := by omega
      have hq : p * (c - 100).toNat ≤ p * 99 := Nat.mul_le_mul_left p hk2
      rw [hk]
      generalize p * (c - 100).toNat = q at hq
      unfold ULONG_MOD
      rw [Nat.mod_eq_of_lt (by omega)]
      omega
  refine ⟨key, ?_⟩
  intro host argv a h hp hc hi
  obtain ⟨_, n, res, ha, _, _, _, hco, _⟩ := exor2_schedule_inv host argv a h
  have hlen : (consumes (exor2 host argv).trace).length = n + 1 := by
    rw [hco, List.length_map, List.length_range]
  have hm : a.max_per_slice = reestimate (a.offset - argv.offset) (cumulative host (n + 1)) := by
    conv => lhs; rw [ha]
    rfl
  rw [hlen] at hc hi
  rw [hm]
  exact (key _ _ hp hc hi).1

theorem reestimate_le_witness :
    (100 * 99 < 2 ^ 64 ∧ (100 : Int) < 150 ∧ (150 : Int) < 2 ^ 31 ∧
      reestimate 100 150 ≤ 100 ∧
      ((150 : Int) / 100 = 1 → (100 * toULong (150 - 100)) % ULONG_MOD / 100 ≤ 100)) ∧
    ((exor2 busyHost argvEx).ret = Term.schedule argvEx1 ∧
      (argvEx1.offset - argvEx.offset) * 99 < 2 ^ 64 ∧
      100 < cumulative busyHost (consumes (exor2 busyHost argvEx).trace).length ∧
      cumulative busyHost (consumes (exor2 busyHost argvEx).trace).length < 2 ^ 31 ∧
      argvEx1.max_per_slice ≤ argvEx1.offset - argvEx.offset) :=
  have hc : cumulative busyHost (consumes (exor2 busyHost argvEx).trace).length = 150 := by
    rw [exor2_busy_argvEx]; decide
  ⟨⟨by decide, by decide, by decide,
      reestimate_le.1 100 150 (by decide) (by decide) (by decide)⟩,
    ⟨by rw [exor2_busy_argvEx], by decide, by rw [hc]; decide, by rw [hc]; decide,
      reestimate_le.2 busyHost argvEx argvEx1 (by rw [exor2_busy_argvEx]) (by decide)
        (by rw [hc]; decide) (by rw [hc]; decide)⟩⟩

/-! ## The cumulative percentage -/

theorem exor2_wrap_argvSeven :
    exor2 wrapHost argvSeven = ⟨Term.schedule argvSevenWrap,
      [Event.store 0, Event.store 1, Event.store 2, Event.consume 100,
        Event.store 3, Event.store 4, Event.store 5, Event.consume 100]⟩ := by
  have h1 : slicePct ⟨0, 0⟩ ⟨15000, 0⟩ = 1500000000 := by decide
  have h2 : reestimate 6 (-1294967296) = 6 := by decide
  rw [exor2_eq_whileLoop _ _ (by decide)]
  simp [ULONG_MOD, toInt32, whileLoop, doWhile, wrapHost, argvSeven, argvSevenWrap, h1, h2,
    clampPct]

/-- C15 (amended): for a fixed `p`, the re-estimated budget does not grow with
the cumulative percentage as long as both percentages lie in the same branch
of the estimator: for `100 < c1 ≤ c2 < 200` (with `p * 99` inside the
`unsigned long` word), and for `200 ≤ c1 ≤ c2` (an `int`). -/
theorem reestimate_antitone_in_branch (p : Nat) (c1 c2 : Int) (h12 : c1 ≤ c2) :
    (100 < c1 → c2 < 200 → p * 99 < 2 ^ 64 → reestimate p c2 ≤ reestimate p c1) ∧
    (200 ≤ c1 → c2 < 2 ^ 31 → reestimate p c2 ≤ reestimate p c1) := by
  obtain ⟨_, a2, a3⟩ := reestimate_formula p c1
  obtain ⟨_, b2, b3⟩ := reestimate_formula p c2
  constructor
  · intro h1 h2 hp
    have hk1 : (c1 - 100).toNat ≤ (c2 - 100).toNat := by omega
    have hk2 : (c2 - 100).toNat ≤ 99 := by omega
    have hq1 : p * (c1 - 100).toNat ≤ p * (c2 - 100).toNat := Nat.mul_le_mul_left p hk1
    have hq2 : p * (c2 - 100).toNat ≤ p * 99 := Nat.mul_le_mul_left p hk2
    rw [a2 (by omega) (by omega), b2 (by omega) (by omega)]
    generalize p * (c1 - 100).toNat = q1 at hq1
    generalize p * (c2 - 100).toNat = q2 at hq1 hq2
    omega
  · intro h1 h2
    rw [a3 (by omega) (by omega), b3 (by omega) h2]
    apply Nat.div_le_div_left
    · omega
    · omega

theorem reestimate_antitone_in_branch_witness :
    ((150 : Int) ≤ 199 ∧ (100 : Int) < 150 ∧ (199 : Int) < 200 ∧ 100 * 99 < 2 ^ 64 ∧
      reestimate 100 199 ≤ reestimate 100 150) ∧
    ((200 : Int) ≤ 450 ∧ (200 : Int) ≤ 200 ∧ (450 : Int) < 2 ^ 31 ∧
      reestimate 100 450 ≤ reestimate 100 200) :=
  ⟨⟨by decide, by decide, by decide, by decide,
      (reestimate_antitone_in_branch 100 150 199 (by decide)).1 (by decide) (by decide)
        (by decide)⟩,
    ⟨by decide, by decide, by decide,
      (reestimate_antitone_in_branch 100 200 450 (by decide)).2 (by decide) (by decide)⟩⟩

/-- C15 as stated fails in two ways.  Across the two branches: with `p = 100`
a total of 199 gives the budget 1, the larger total 200 gives 50.  Inside the
branch `m == 1` where the product wraps: with `p = 2^63` a total of 101 gives
`9131138316486228050`, the larger total 102 gives `2^63`. -/
theorem reestimate_not_antitone :
    ((199 : Int) ≤ 200 ∧ (100 : Int) < 199 ∧
      reestimate 100 199 = 1 ∧ reestimate 100 200 = 50 ∧
      ¬ reestimate 100 200 ≤ reestimate 100 199) ∧
    ((101 : Int) ≤ 102 ∧ (100 : Int) < 101 ∧
      reestimate (2 ^ 63) 101 = 9131138316486228050 ∧
      reestimate (2 ^ 63) 102 = 9223372036854775808 ∧
      ¬ reestimate (2 ^ 63) 102 ≤ reestimate (2 ^ 63) 101) := by
  decide

/-! ## The percentage reported to the host -/

/-- For a percentage that is not negative the two tests of lines 84-85 are a
clamp to `[1,100]`. -/
theorem clampPct_range (pct : Int) (h : 0 ≤ pct) : 1 ≤ clampPct pct ∧ clampPct pct ≤ 100 := by
  unfold clampPct
  split
  · omega
  · split <;> omega

theorem exor2_back_argvEx :
    exor2 backHost argvEx = ⟨Term.schedule argvExBack, [Event.store 0, Event.consume (-5)]⟩ := by
  have h1 : slicePct ⟨0, 100⟩ ⟨0, 50⟩ = -5 := by decide
  have h2 : reestimate 1 (-5) = 1 := by decide
  rw [exor2_eq_whileLoop _ _ (by decide)]
  simp [ULONG_MOD, toInt32, whileLoop, doWhile, backHost, argvEx, argvExBack, h1, h2, clampPct]

/-- C19, the code at the failing input: when the wall clock is set back by 50
microseconds between the two readings of a slice, the elapsed time is -50
microseconds, the percentage is -5, neither of the two tests of lines 84-85
applies, and `enif_consume_timeslice` is called with -5. -/
theorem exor2_reports_negative_pct :
    (timersub (backHost 0).stop (backHost 0).start).tv_sec * 1000000
      + (timersub (backHost 0).stop (backHost 0).start).tv_usec = -50 ∧
    pctOf backHost 0 = -5 ∧
    consumes (exor2 backHost argvEx).trace = [-5] ∧
    ¬ (1 ≤ (-5 : Int) ∧ (-5 : Int) ≤ 100) := by
  rw [exor2_back_argvEx]
  refine ⟨by decide, by decide, by decide, by decide⟩

/-! ## Slice boundaries -/

theorem clampEnd_le (size e : Nat) : clampEnd size e ≤ size := by
  unfold clampEnd
  split <;> omega

theorem endAt_le (argv : Argv) (k : Nat) : endAt argv k ≤ argv.bin.length := by
  cases k with
  | zero => exact clampEnd_le _ _
  | succ k => exact clampEnd_le _ _

theorem posAt_succ (argv : Argv) (k : Nat) :
    posAt argv (k + 1) = max (endAt argv k) (posAt argv k + 1) := rfl

theorem posAt_lt_succ (argv : Argv) (k : Nat) : posAt argv k < posAt argv (k + 1) := by
  rw [posAt_succ]; omega

theorem posAt_mono (argv : Argv) {j k : Nat} (h : j ≤ k) : posAt argv j ≤ posAt argv k := by
  induction k with
  | zero =>
    have : j = 0 := by omega
    rw [this]
  | succ k ih =>
    by_cases hj : j = k + 1
    · rw [hj]
    · have h1 := ih (by omega)
      have h2 := posAt_lt_succ argv k
      omega

/-- A slice that starts inside the binary ends inside it or at its end. -/
theorem posAt_succ_le (argv : Argv) (k : Nat) (h : posAt argv k < argv.bin.length) :
    posAt argv (k + 1) ≤ argv.bin.length := by
  have := endAt_le argv k
  rw [posAt_succ]; omega

/-- Every run of the `while` loop from the head of a slice ends as `SliceExit`
describes. -/
theorem whileLoop_slices (host : Host) (argv : Argv) (byte : Nat) :
    ∀ (m : Nat) (st : Locals), argv.bin.length - st.i = m → SliceInv host argv st →
      SliceExit host argv (whileLoop host argv byte st) := by
  intro m
  induction m using Nat.strong_induction_on with
  | _ m ih =>
    intro st hm inv
    obtain ⟨hi, he, ht, htr, hlt, hne⟩ := inv
    rw [whileLoop, if_pos hlt]
    obtain ⟨d1, d2, _⟩ := doWhile_spec argv.bin byte st.end_ st.res st.trace st.i
    have hp : max st.end_ (st.i + 1) = posAt argv (st.slices + 1) := by
      rw [posAt_succ, he, hi]
    rw [hp] at d1 d2
    have hd2 : (doWhile argv.bin byte st.end_ st.res st.trace st.i).2.1
        = measured host argv st.slices ++ sliceStores argv st.slices := by
      rw [d2, htr, hi]; rfl
    have hle := posAt_succ_le argv st.slices (by rw [← hi]; exact hlt)
    by_cases hd : (doWhile argv.bin byte st.end_ st.res st.trace st.i).2.2 = argv.bin.length
    · simp only [hd, if_true, finish]
      refine ⟨st.slices, (doWhile argv.bin byte st.end_ st.res st.trace st.i).1, hne,
        by rw [← hi]; exact hlt, Or.inr ⟨by rw [← d1, hd], ?_⟩⟩
      rw [hd2]
    · simp only [hd, if_false]
      have hlt2 : posAt argv (st.slices + 1) < argv.bin.length := by
        rw [d1] at hd; omega
      have htot : toInt32 (st.total + slicePct (host st.slices).start (host st.slices).stop)
          = cumulative host (st.slices + 1) := by
        rw [cumulative, ht]; rfl
      have htr2 : (doWhile argv.bin byte st.end_ st.res st.trace st.i).2.1 ++
          [Event.consume (clampPct (slicePct (host st.slices).start (host st.slices).stop))]
          = measured host argv (st.slices + 1) := by
        rw [hd2]; rfl
      by_cases hex : (host st.slices).exhausted = true
      · simp only [hex, if_true]
        refine ⟨st.slices, (doWhile argv.bin byte st.end_ st.res st.trace st.i).1, hne,
          by rw [← hi]; exact hlt, Or.inl ⟨hex, hlt2, ?_⟩⟩
        rw [htr2, htot, d1]
        rfl
      · simp only [hex]
        have hex' : (host st.slices).exhausted = false := by simpa using hex
        have hpl := posAt_lt_succ argv st.slices
        apply ih (argv.bin.length - posAt argv (st.slices + 1)) (by omega) _
          (by simp only [d1])
        refine ⟨?_, ?_, ?_, ?_, ?_, ?_⟩
        · exact d1
        · show (if (st.end_ + argv.max_per_slice) % ULONG_MOD > argv.bin.length
            then argv.bin.length else (st.end_ + argv.max_per_slice) % ULONG_MOD)
              = endAt argv (st.slices + 1)
          rw [he]; rfl
        · exact htot
        · exact htr2
        · show (doWhile argv.bin byte st.end_ st.res st.trace st.i).2.2 < argv.bin.length
          rw [d1]; exact hlt2
        · intro k hk
          have hk2 : k < st.slices + 1 := hk
          by_cases hk' : k = st.slices
          · rw [hk']; exact hex'
          · exact hne k (by omega)

/-- Every invocation of `exor2` with a byte value in range and an offset
inside the binary ends as `SliceExit` describes. -/
theorem exor2_slices (host : Host) (argv : Argv) (hv : argv.val ≤ 255)
    (ho : argv.offset < argv.bin.length) : SliceExit host argv (exor2 host argv) := by
  rw [exor2_eq_whileLoop host argv hv]
  apply whileLoop_slices host argv argv.val _ _ rfl
  refine ⟨rfl, rfl, rfl, rfl, ho, ?_⟩
  intro k hk
  exact absurd hk (by simp)

/-- The invocation reschedules after slice `n` when slice `n` is the first one
for which the host reports the timeslice as used up and it ends before the
end of the binary. -/
theorem exor2_yield_at (host : Host) (argv : Argv) (hv : argv.val ≤ 255) (n : Nat)
    (hne : ∀ k, k < n → (host k).exhausted = false) (hex : (host n).exhausted = true)
    (hlt : posAt argv (n + 1) < argv.bin.length) :
    ∃ res, exor2 host argv = ⟨Term.schedule (nextArgv host argv (n + 1) (posAt argv (n + 1)) res),
      measured host argv (n + 1)⟩ := by
  have ho : argv.offset < argv.bin.length :=
    Nat.lt_of_le_of_lt (posAt_mono argv (Nat.zero_le (n + 1))) hlt
  obtain ⟨m, res, hm, _, h⟩ := exor2_slices host argv hv ho
  rcases h with ⟨hx, _, heq⟩ | ⟨hp, _⟩
  · have hmn : m = n := by
      rcases Nat.lt_trichotomy m n with h1 | h1 | h1
      · rw [hne m h1] at hx; exact absurd hx (by simp)
      · exact h1
      · rw [hm n h1] at hex; exact absurd hex (by simp)
    subst hmn
    exact ⟨res, heq⟩
  · exfalso
    have hmn : m ≤ n := by
      rcases Nat.lt_or_ge n m with h1 | h1
      · rw [hm n h1] at hex; exact absurd hex (by simp)
      · exact h1
    have := posAt_mono argv (by omega : m + 1 ≤ n + 1)
    omega

/-- The invocation finishes in slice `n` when slice `n` reaches the end of the
binary and the host did not report the timeslice as used up before; nothing
is asked of the host about slice `n`. -/
theorem exor2_finish_at (host : Host) (argv : Argv) (hv : argv.val ≤ 255) (n : Nat)
    (hne : ∀ k, k < n → (host k).exhausted = false)
    (hlt : posAt argv n < argv.bin.length) (hge : argv.bin.length ≤ posAt argv (n + 1)) :
    ∃ res : List Nat, exor2 host argv = ⟨Term.tuple2 (res.take argv.bin.length) argv.yields,
      measured host argv n ++ sliceStores argv n⟩ := by
  have ho : argv.offset < argv.bin.length :=
    Nat.lt_of_le_of_lt (posAt_mono argv (Nat.zero_le n)) hlt
  obtain ⟨m, res, hm, hpm, h⟩ := exor2_slices host argv hv ho
  rcases h with ⟨hx, hp, _⟩ | ⟨hp, heq⟩
  · exfalso
    have hmn : n ≤ m := by
      rcases Nat.lt_or_ge m n with h1 | h1
      · rw [hne m h1] at hx; exact absurd hx (by simp)
      · exact h1
    have := posAt_mono argv (by omega : n + 1 ≤ m + 1)
    omega
  · have hmn : m = n := by
      rcases Nat.lt_trichotomy m n with h1 | h1 | h1
      · have := posAt_mono argv (by omega : m + 1 ≤ n)
        omega
      · exact h1
      · have := posAt_mono argv (by omega : n + 1 ≤ m)
        omega
    subst hmn
    exact ⟨res, heq⟩

theorem measured_succ_prefix (host : Host) (argv : Argv) (n : Nat) :
    ∃ rest, measured host argv (n + 1)
      = sliceStores argv 0 ++ Event.consume (clampPct (pctOf host 0)) :: rest := by
  induction n with
  | zero => exact ⟨[], by simp [measured]⟩
  | succ n ih =>
    obtain ⟨rest, hr⟩ := ih
    refine ⟨rest ++ sliceStores argv (n + 1)
      ++ [Event.consume (clampPct (pctOf host (n + 1)))], ?_⟩
    rw [measured, hr]
    simp

theorem firstSlice_stores_consume (l : List Nat) (p : Int) (rest : List Event) :
    firstSlice (l.map Event.store ++ Event.consume p :: rest) = l := by
  induction l with
  | nil => simp [firstSlice, stores]
  | cons a l ih =>
    simp only [firstSlice, stores, List.map_cons, List.cons_append, List.takeWhile_cons,
      if_true, List.filterMap_cons] at ih ⊢
    rw [ih]

theorem firstSlice_stores (l : List Nat) : firstSlice (l.map Event.store) = l := by
  induction l with
  | nil => simp [firstSlice, stores]
  | cons a l ih =>
    simp only [firstSlice, stores, List.map_cons, List.takeWhile_cons,
      if_true, List.filterMap_cons] at ih ⊢
    rw [ih]

/-- The first slice of an invocation that enters its loop stores at the
indices from the entry offset up to where the second slice would start. -/
theorem exor2_firstSlice (host : Host) (argv : Argv) (hv : argv.val ≤ 255)
    (ho : argv.offset < argv.bin.length) :
    firstSlice (exor2 host argv).trace
      = List.range' argv.offset (posAt argv 1 - argv.offset) := by
  obtain ⟨n, res, _, _, h⟩ := exor2_slices host argv hv ho
  have h0 : sliceStores argv 0
      = (List.range' argv.offset (posAt argv 1 - argv.offset)).map Event.store := rfl
  rcases h with ⟨_, _, heq⟩ | ⟨_, heq⟩
  · obtain ⟨rest, hr⟩ := measured_succ_prefix host argv n
    rw [heq]
    show firstSlice (measured host argv (n + 1)) = _
    rw [hr, h0, firstSlice_stores_consume]
  · rw [heq]
    show firstSlice (measured host argv n ++ sliceStores argv n) = _
    cases n with
    | zero =>
      rw [measured, List.nil_append, h0, firstSlice_stores]
    | succ n =>
      obtain ⟨rest, hr⟩ := measured_succ_prefix host argv n
      rw [hr, h0, List.append_assoc, List.cons_append, firstSlice_stores_consume]

/-! ## Bounds of the stores -/

/-- C13: for every `exor2` argument list (any offset, also one not below
`len(S)`, and any slice budget, also one for which `offset + max_per_slice`
wraps modulo `2^64`), every index stored to is below `len(S)`, the length of
the buffer; when `offset ≥ len(S)` the invocation does nothing at all and,
the byte value being in range, returns the buffer with the incoming yield
count. -/
theorem exor2_in_bounds (host : Host) (argv : Argv) :
    (∀ j, j ∈ stores (exor2 host argv).trace → j < argv.bin.length) ∧
    (argv.bin.length ≤ argv.offset →
      (exor2 host argv).trace = [] ∧
      (argv.val ≤ 255 → argv.res.length = argv.bin.length →
        (exor2 host argv).ret = Term.tuple2 argv.res argv.yields)) := by
  constructor
  · intro j hj
    rcases exor2_cases host argv with ⟨_, hbad⟩ | ⟨_, n, i, res, h1, _, _, h4, h5⟩
    · rw [hbad] at hj; exact absurd hj (List.not_mem_nil j)
    · rw [h1] at hj
      have hj1 := (List.mem_range'_1.mp hj).1
      have hj2 := (List.mem_range'_1.mp hj).2
      rcases h5 with ⟨_, _, hi⟩ | ⟨_, _, hi, _⟩
      · rcases hi with hi | ⟨_, hi, _⟩
        · omega
        · omega
      · omega
  · intro ho
    by_cases hv : argv.val ≤ 255
    · have h : exor2 host argv = finish argv argv.res [] := by
        rw [exor2_eq_whileLoop host argv hv, whileLoop]
        simp only []
        rw [if_neg (by omega)]
      refine ⟨by rw [h]; rfl, ?_⟩
      intro _ hl
      rw [h]
      show Term.tuple2 (argv.res.take argv.bin.length) argv.yields = _
      rw [← hl, List.take_length]
    · refine ⟨by rw [exor2_badarg host argv (by omega)], ?_⟩
      intro hv2
      exact absurd hv2 hv

theorem exor2_in_bounds_witness :
    (∀ j, j ∈ stores (exor2 busyHost argvWrap).trace → j < argvWrap.bin.length) ∧
    (argvPast.bin.length ≤ argvPast.offset ∧
      (exor2 busyHost argvPast).trace = [] ∧
      argvPast.val ≤ 255 ∧ argvPast.res.length = argvPast.bin.length ∧
      (exor2 busyHost argvPast).ret = Term.tuple2 argvPast.res argvPast.yields) :=
  ⟨(exor2_in_bounds busyHost argvWrap).1,
    by decide,
    ((exor2_in_bounds busyHost argvPast).2 (by decide)).1,
    by decide, by decide,
    ((exor2_in_bounds busyHost argvPast).2 (by decide)).2 (by decide) (by decide)⟩

/-! ## The first slice -/

/-- C16 (amended): for every `exor2` invocation with `offset < len(S)` and
every slice budget, the first slice (the stores before the first call of
`enif_consume_timeslice`, or all stores if there is none) covers exactly the
indices `[offset, max(end, offset + 1))` with
`end = min((offset + max_per_slice) mod 2^64, len(S))`: that is
`[offset, min(offset + max_per_slice, len(S)))` when the budget is at least 1
and `offset + max_per_slice` does not wrap, and the single index `offset` when
the budget is 0. -/
theorem exor2_first_slice_range (host : Host) (argv : Argv) (hv : argv.val ≤ 255)
    (ho : argv.offset < argv.bin.length) :
    firstSlice (exor2 host argv).trace
      = List.range' argv.offset
          (max (min ((argv.offset + argv.max_per_slice) % 2 ^ 64) argv.bin.length)
            (argv.offset + 1) - argv.offset) ∧
    (1 ≤ argv.max_per_slice → argv.offset + argv.max_per_slice < 2 ^ 64 →
      firstSlice (exor2 host argv).trace
        = List.range' argv.offset
            (min (argv.offset + argv.max_per_slice) argv.bin.length - argv.offset)) ∧
    (argv.max_per_slice = 0 → firstSlice (exor2 host argv).trace = [argv.offset]) := by
  have h := exor2_firstSlice host argv hv ho
  have hp : posAt argv 1
      = max (min ((argv.offset + argv.max_per_slice) % 2 ^ 64) argv.bin.length)
          (argv.offset + 1) := by
    show max (clampEnd argv.bin.length ((argv.offset + argv.max_per_slice) % ULONG_MOD))
      (argv.offset + 1) = _
    unfold clampEnd ULONG_MOD
    split <;> omega
  rw [hp] at h
  refine ⟨h, ?_, ?_⟩
  · intro hb hw
    rw [h, Nat.mod_eq_of_lt hw]
    congr 1
    omega
  · intro hb
    rw [h, hb, Nat.add_zero]
    have hw : argv.offset % 2 ^ 64 ≤ argv.offset := Nat.mod_le _ _
    have : max (min (argv.offset % 2 ^ 64) argv.bin.length) (argv.offset + 1) - argv.offset
        = 1 := by omega
    rw [this]
    rfl

theorem exor2_busy_argvZero :
    exor2 busyHost argvZero = ⟨Term.schedule argvEx1, [Event.store 0, Event.consume 100]⟩ := by
  have h1 : slicePct ⟨0, 0⟩ ⟨0, 1500⟩ = 150 := by decide
  have h2 : reestimate 1 150 = 1 := by decide
  rw [exor2_eq_whileLoop _ _ (by decide)]
  simp [ULONG_MOD, toInt32, whileLoop, doWhile, busyHost, argvZero, argvEx1, h1, h2, clampPct]

theorem exor2_first_slice_range_witness :
    (argvEx.val ≤ 255 ∧ argvEx.offset < argvEx.bin.length ∧
      1 ≤ argvEx.max_per_slice ∧ argvEx.offset + argvEx.max_per_slice < 2 ^ 64 ∧
      firstSlice (exor2 busyHost argvEx).trace
        = List.range' argvEx.offset
            (min (argvEx.offset + argvEx.max_per_slice) argvEx.bin.length - argvEx.offset)) ∧
    (argvZero.val ≤ 255 ∧ argvZero.offset < argvZero.bin.length ∧
      argvZero.max_per_slice = 0 ∧
      firstSlice (exor2 busyHost argvZero).trace = [argvZero.offset]) ∧
    (argvWrap.val ≤ 255 ∧ argvWrap.offset < argvWrap.bin.length ∧
      firstSlice (exor2 busyHost argvWrap).trace
        = List.range' argvWrap.offset
          (max (min ((argvWrap.offset + argvWrap.max_per_slice) % 2 ^ 64) argvWrap.bin.length)
            (argvWrap.offset + 1) - argvWrap.offset)) :=
  ⟨⟨by decide, by decide, by decide, by decide,
      (exor2_first_slice_range busyHost argvEx (by decide) (by decide)).2.1
        (by decide) (by decide)⟩,
    ⟨by decide, by decide, by decide,
      (exor2_first_slice_range busyHost argvZero (by decide) (by decide)).2.2 (by decide)⟩,
    ⟨by decide, by decide,
      (exor2_first_slice_range busyHost argvWrap (by decide) (by decide)).1⟩⟩

theorem exor2_busy_argvWrap :
    exor2 busyHost argvWrap = ⟨Term.schedule argvWrap1, [Event.store 1, Event.consume 100]⟩ := by
  have h1 : slicePct ⟨0, 0⟩ ⟨0, 1500⟩ = 150 := by decide
  have h2 : reestimate 1 150 = 1 := by decide
  rw [exor2_eq_whileLoop _ _ (by decide)]
  simp [ULONG_MOD, toInt32, whileLoop, doWhile, busyHost, argvWrap, argvWrap1, h1, h2, clampPct]

/-- C16 as stated fails in two ways.  For a slice budget of 0: the first
slice of `exor2` on a 3-byte binary with offset 0 and budget 0 stores at index
0, while `[offset, min(offset + max_per_slice, len(S)))` is empty.  Where
`offset + max_per_slice` wraps: with offset 1 and budget `2^64 - 1` the first
slice stores at index 1 only, while
`[offset, min(offset + max_per_slice, len(S)))` is `[1, 3)`. -/
theorem exor2_first_slice_not_min :
    (argvZero.offset < argvZero.bin.length ∧ argvZero.max_per_slice = 0 ∧
      firstSlice (exor2 busyHost argvZero).trace = [0] ∧
      List.range' argvZero.offset
        (min (argvZero.offset + argvZero.max_per_slice) argvZero.bin.length - argvZero.offset)
        = [] ∧
      firstSlice (exor2 busyHost argvZero).trace
        ≠ List.range' argvZero.offset
          (min (argvZero.offset + argvZero.max_per_slice) argvZero.bin.length
            - argvZero.offset)) ∧
    (argvWrap.offset < argvWrap.bin.length ∧ argvWrap.max_per_slice = 2 ^ 64 - 1 ∧
      firstSlice (exor2 busyHost argvWrap).trace = [1] ∧
      List.range' argvWrap.offset
        (min (argvWrap.offset + argvWrap.max_per_slice) argvWrap.bin.length - argvWrap.offset)
        = [1, 2] ∧
      firstSlice (exor2 busyHost argvWrap).trace
        ≠ List.range' argvWrap.offset
          (min (argvWrap.offset + argvWrap.max_per_slice) argvWrap.bin.length
            - argvWrap.offset)) := by
  rw [exor2_busy_argvZero, exor2_busy_argvWrap]
  refine ⟨⟨by decide, by decide, by decide, by decide, by decide⟩,
    ⟨by decide, by decide, by decide, by decide, by decide⟩⟩

/-! ## Several slices in one invocation -/

/-- With a slice budget `b ≥ 1` and as long as the slices end before the end
of the binary, slice `j` covers `[offset + j * b, offset + (j + 1) * b)`. -/
theorem posAt_linear (argv : Argv) (n : Nat) (hb : 1 ≤ argv.max_per_slice)
    (hlen : argv.bin.length < 2 ^ 64)
    (hend : argv.offset + (n + 1) * argv.max_per_slice < argv.bin.length) :
    ∀ j, j ≤ n + 1 → posAt argv j = argv.offset + j * argv.max_per_slice ∧
      (j ≤ n → endAt argv j = argv.offset + (j + 1) * argv.max_per_slice) := by
  intro j
  induction j with
  | zero =>
    intro _
    refine ⟨by rw [Nat.zero_mul]; rfl, ?_⟩
    intro _
    have h1 : 1 * argv.max_per_slice ≤ (n + 1) * argv.max_per_slice :=
      Nat.mul_le_mul_right _ (by omega)
    rw [Nat.one_mul] at h1
    show clampEnd argv.bin.length ((argv.offset + argv.max_per_slice) % ULONG_MOD) = _
    rw [Nat.zero_add, Nat.one_mul]
    generalize (n + 1) * argv.max_per_slice = q at hend h1
    unfold clampEnd ULONG_MOD
    rw [Nat.mod_eq_of_lt (by omega)]
    split <;> omega
  | succ j ih =>
    intro hj
    obtain ⟨ip, ie⟩ := ih (by omega)
    have ie' := ie (by omega)
    have e1 : (j + 1) * argv.max_per_slice = j * argv.max_per_slice + argv.max_per_slice :=
      Nat.succ_mul j _
    have hp : posAt argv (j + 1) = argv.offset + (j + 1) * argv.max_per_slice := by
      rw [posAt_succ, ie', ip, e1]
      omega
    refine ⟨hp, ?_⟩
    intro hjn
    have e2 : (j + 1 + 1) * argv.max_per_slice
        = (j + 1) * argv.max_per_slice + argv.max_per_slice := Nat.succ_mul (j + 1) _
    have h1 : (j + 1 + 1) * argv.max_per_slice ≤ (n + 1) * argv.max_per_slice :=
      Nat.mul_le_mul_right _ (by omega)
    show clampEnd argv.bin.length ((endAt argv j + argv.max_per_slice) % ULONG_MOD) = _
    rw [ie', e2]
    rw [e2] at h1
    generalize (n + 1) * argv.max_per_slice = q at hend h1
    generalize (j + 1) * argv.max_per_slice = r at h1 ⊢
    unfold clampEnd ULONG_MOD
    rw [Nat.mod_eq_of_lt (by omega)]
    split <;> omega

/-- C17: several slices in one invocation.  If `exor2` is entered with a
slice budget `b ≥ 1` and the host first reports the timeslice as used up after
slice number `k = n + 1` (counting from 1), all `k` slices ending before
`len(S)` (a `size_t`), then the rescheduled offset is `offset + k * b`, the
number of bytes fed to the estimator is `k * b`, and with a cumulative
percentage of at most 100 the next slice budget is `k * b`. -/
theorem exor2_multi_slice (host : Host) (argv : Argv) (n : Nat) (hv : argv.val ≤ 255)
    (hb : 1 ≤ argv.max_per_slice) (hlen : argv.bin.length < 2 ^ 64)
    (hend : argv.offset + (n + 1) * argv.max_per_slice < argv.bin.length)
    (hne : ∀ j, j < n → (host j).exhausted = false) (hex : (host n).exhausted = true) :
    ∃ a, (exor2 host argv).ret = Term.schedule a ∧
      a.offset = argv.offset + (n + 1) * argv.max_per_slice ∧
      a.max_per_slice
        = reestimate ((n + 1) * argv.max_per_slice) (cumulative host (n + 1)) ∧
      (cumulative host (n + 1) ≤ 100 → a.max_per_slice = (n + 1) * argv.max_per_slice) := by
  have hp := (posAt_linear argv n hb hlen hend (n + 1) (Nat.le_refl _)).1
  obtain ⟨res, hr⟩ := exor2_yield_at host argv hv n hne hex (by rw [hp]; exact hend)
  have hm : (nextArgv host argv (n + 1) (posAt argv (n + 1)) res).max_per_slice
      = reestimate ((n + 1) * argv.max_per_slice) (cumulative host (n + 1)) := by
    show reestimate (posAt argv (n + 1) - argv.offset) (cumulative host (n + 1)) = _
    rw [hp, Nat.add_sub_cancel_left]
  refine ⟨_, by rw [hr], hp, hm, ?_⟩
  intro hc
  rw [hm]
  exact (reestimate_formula _ _).1 hc

theorem exor2_late_argvEx :
    exor2 lateHost argvEx = ⟨Term.schedule argvExLate,
      [Event.store 0, Event.consume 5, Event.store 1, Event.consume 5]⟩ := by
  have h1 : slicePct ⟨0, 0⟩ ⟨0, 50⟩ = 5 := by decide
  have h2 : reestimate 2 10 = 2 := by decide
  rw [exor2_eq_whileLoop _ _ (by decide)]
  simp [ULONG_MOD, toInt32, whileLoop, doWhile, lateHost, argvEx, argvExLate, h1, h2, clampPct]

theorem exor2_multi_slice_witness :
    (argvEx.val ≤ 255 ∧ 1 ≤ argvEx.max_per_slice ∧ argvEx.bin.length < 2 ^ 64 ∧
      argvEx.offset + (1 + 1) * argvEx.max_per_slice < argvEx.bin.length ∧
      (∀ j, j < 1 → (lateHost j).exhausted = false) ∧ (lateHost 1).exhausted = true ∧
      cumulative lateHost (1 + 1) ≤ 100 ∧
      (exor2 lateHost argvEx).ret = Term.schedule argvExLate ∧
      ∃ a, (exor2 lateHost argvEx).ret = Term.schedule a ∧
        a.offset = argvEx.offset + (1 + 1) * argvEx.max_per_slice ∧
        a.max_per_slice
          = reestimate ((1 + 1) * argvEx.max_per_slice) (cumulative lateHost (1 + 1)) ∧
        (cumulative lateHost (1 + 1) ≤ 100 →
          a.max_per_slice = (1 + 1) * argvEx.max_per_slice)) ∧
    (argvSeven.val ≤ 255 ∧ 1 ≤ argvSeven.max_per_slice ∧ argvSeven.bin.length < 2 ^ 64 ∧
      argvSeven.offset + (1 + 1) * argvSeven.max_per_slice < argvSeven.bin.length ∧
      (∀ j, j < 1 → (wrapHost j).exhausted = false) ∧ (wrapHost 1).exhausted = true ∧
      pctOf wrapHost 0 = 1500000000 ∧ pctOf wrapHost 1 = 1500000000 ∧
      cumulative wrapHost (1 + 1) = -1294967296 ∧
      (1 + 1) * argvSeven.max_per_slice = 6 ∧
      (exor2 wrapHost argvSeven).ret = Term.schedule argvSevenWrap ∧
      argvSevenWrap.max_per_slice = 6 ∧
      ∃ a, (exor2 wrapHost argvSeven).ret = Term.schedule a ∧
        a.offset = argvSeven.offset + (1 + 1) * argvSeven.max_per_slice ∧
        a.max_per_slice
          = reestimate ((1 + 1) * argvSeven.max_per_slice) (cumulative wrapHost (1 + 1)) ∧
        (cumulative wrapHost (1 + 1) ≤ 100 →
          a.max_per_slice = (1 + 1) * argvSeven.max_per_slice)) :=
  ⟨⟨by decide, by decide, by decide, by decide, by decide, by decide, by decide,
      by rw [exor2_late_argvEx],
      exor2_multi_slice lateHost argvEx 1 (by decide) (by decide) (by decide) (by decide)
        (by decide) (by decide)⟩,
    ⟨by decide, by decide, by decide, by decide, by decide, by decide, by decide, by decide,
      by decide, by decide, by rw [exor2_wrap_argvSeven], by decide,
      exor2_multi_slice wrapHost argvSeven 1 (by decide) (by decide) (by decide) (by decide)
        (by decide) (by decide)⟩⟩

/-! ## When an invocation reschedules -/

theorem first_exhausted (host : Host) :
    ∀ k, (host k).exhausted = true →
      ∃ n, n ≤ k ∧ (host n).exhausted = true ∧ ∀ j, j < n → (host j).exhausted = false := by
  intro k
  induction k using Nat.strong_induction_on with
  | _ k ih =>
    intro hk
    by_cases h : ∀ j, j < k → (host j).exhausted = false
    · exact ⟨k, Nat.le_refl _, hk, h⟩
    · obtain ⟨j, hj⟩ := Classical.not_forall.mp h
      obtain ⟨hjk, hj2⟩ := Classical.not_imp.mp hj
      have hj3 : (host j).exhausted = true := by
        cases hx : (host j).exhausted with
        | true => rfl
        | false => exact absurd hx hj2
      obtain ⟨n, hn, h1, h2⟩ := ih j hjk hj3
      exact ⟨n, by omega, h1, h2⟩

theorem consumes_measured (host : Host) (argv : Argv) (n : Nat) :
    consumes (measured host argv n) = (List.range n).map (fun k => clampPct (pctOf host k)) := by
  induction n with
  | zero => rfl
  | succ n ih =>
    rw [measured, consumes_append, consumes_append, ih, range_succ_map]
    unfold sliceStores
    rw [consumes_map_store, List.append_nil]
    rfl

/-- C18: an `exor2` invocation (byte value in range) reschedules if and only
if the host reports the timeslice as used up for some slice that ends
strictly before `len(S)`, and it does so after the first such slice; a slice
that reaches `len(S)` is followed by no measurement and no call of
`enif_consume_timeslice`, so the invocation finishes with the result whatever
the clock and the host would say about that slice. -/
theorem exor2_reschedule_iff (host : Host) (argv : Argv) (hv : argv.val ≤ 255) :
    ((∃ a, (exor2 host argv).ret = Term.schedule a) ↔
      ∃ k, (host k).exhausted = true ∧ posAt argv (k + 1) < argv.bin.length) ∧
    (∀ n, (∀ k, k < n → (host k).exhausted = false) → (host n).exhausted = true →
      posAt argv (n + 1) < argv.bin.length →
      ∃ a, (exor2 host argv).ret = Term.schedule a ∧ a.offset = posAt argv (n + 1) ∧
        (exor2 host argv).trace = measured host argv (n + 1)) ∧
    (∀ n, (∀ k, k < n → (host k).exhausted = false) → posAt argv n < argv.bin.length →
      argv.bin.length ≤ posAt argv (n + 1) →
      (∃ out, (exor2 host argv).ret = Term.tuple2 out argv.yields) ∧
        (exor2 host argv).trace = measured host argv n ++ sliceStores argv n ∧
        (consumes (exor2 host argv).trace).length = n) := by
  refine ⟨⟨?_, ?_⟩, ?_, ?_⟩
  · rintro ⟨a, ha⟩
    obtain ⟨_, _, _, _, h1, h2, _⟩ := exor2_schedule_inv host argv a ha
    obtain ⟨n, res, _, _, h⟩ := exor2_slices host argv hv (by omega)
    rcases h with ⟨hx, hp, _⟩ | ⟨_, heq⟩
    · exact ⟨n, hx, hp⟩
    · rw [heq] at ha
      exact Term.noConfusion ha
  · rintro ⟨k, hk, hp⟩
    obtain ⟨n, hn, hx, hne⟩ := first_exhausted host k hk
    have := posAt_mono argv (by omega : n + 1 ≤ k + 1)
    obtain ⟨res, hr⟩ := exor2_yield_at host argv hv n hne hx (by omega)
    exact ⟨_, by rw [hr]⟩
  · intro n hne hx hp
    obtain ⟨res, hr⟩ := exor2_yield_at host argv hv n hne hx hp
    exact ⟨_, by rw [hr], rfl, by rw [hr]⟩
  · intro n hne hp hge
    obtain ⟨res, hr⟩ := exor2_finish_at host argv hv n hne hp hge
    refine ⟨⟨_, by rw [hr]⟩, by rw [hr], ?_⟩
    rw [hr]
    show (consumes (measured host argv n ++ sliceStores argv n)).length = n
    rw [consumes_append, consumes_measured]
    unfold sliceStores
    rw [consumes_map_store, List.append_nil, List.length_map, List.length_range]

theorem exor2_last_argvEx :
    exor2 lastHost argvEx = ⟨Term.tuple2 [0xFF, 0x00, 0xF0] 0,
      [Event.store 0, Event.consume 5, Event.store 1, Event.consume 5, Event.store 2]⟩ := by
  have h1 : slicePct ⟨0, 0⟩ ⟨0, 50⟩ = 5 := by decide
  rw [exor2_eq_whileLoop _ _ (by decide)]
  simp [ULONG_MOD, toInt32, whileLoop, doWhile, lastHost, argvEx, h1, clampPct, finish]

theorem exor2_reschedule_iff_witness :
    argvEx.val ≤ 255 ∧
    ((∃ k, (lateHost k).exhausted = true ∧ posAt argvEx (k + 1) < argvEx.bin.length) ∧
      ∃ a, (exor2 lateHost argvEx).ret = Term.schedule a) ∧
    ((∀ k, k < 1 → (lateHost k).exhausted = false) ∧ (lateHost 1).exhausted = true ∧
      posAt argvEx (1 + 1) < argvEx.bin.length ∧
      ∃ a, (exor2 lateHost argvEx).ret = Term.schedule a ∧ a.offset = posAt argvEx (1 + 1) ∧
        (exor2 lateHost argvEx).trace = measured lateHost argvEx (1 + 1)) ∧
    ((∀ k, k < 2 → (lastHost k).exhausted = false) ∧ posAt argvEx 2 < argvEx.bin.length ∧
      argvEx.bin.length ≤ posAt argvEx (2 + 1) ∧
      (lastHost 2).exhausted = true ∧ pctOf lastHost 2 = 500 ∧
      (exor2 lastHost argvEx).ret = Term.tuple2 [0xFF, 0x00, 0xF0] 0 ∧
      (∃ out, (exor2 lastHost argvEx).ret = Term.tuple2 out argvEx.yields) ∧
        (exor2 lastHost argvEx).trace = measured lastHost argvEx 2 ++ sliceStores argvEx 2 ∧
        (consumes (exor2 lastHost argvEx).trace).length = 2) :=
  ⟨by decide,
    ⟨⟨1, by decide, by decide⟩,
      (exor2_reschedule_iff lateHost argvEx (by decide)).1.mpr ⟨1, by decide, by decide⟩⟩,
    ⟨by decide, by decide, by decide,
      (exor2_reschedule_iff lateHost argvEx (by decide)).2.1 1 (by decide) (by decide)
        (by decide)⟩,
    ⟨by decide, by decide, by decide, by decide, by decide, by rw [exor2_last_argvEx],
      (exor2_reschedule_iff lastHost argvEx (by decide)).2.2 2 (by decide) (by decide)
        (by decide)⟩⟩

/-! ## The non-yielding exor -/

/-- On a binary of at least `2^32` bytes the loop test of `exor` never fails:
the counter is below `2^32` at every test. -/
theorem exorFor_diverges (bin : List Nat) (byte : Nat) (hlen : UINT_MOD ≤ bin.length) :
    ∀ (fuel : Nat) (outbin : List Nat) (i : Nat), i < UINT_MOD →
      exorFor bin byte fuel outbin i = none := by
  intro fuel
  induction fuel with
  | zero => intro outbin i _; rfl
  | succ fuel ih =>
    intro outbin i hi
    rw [exorFor, if_pos (by omega)]
    exact ih _ _ (Nat.mod_lt _ (by unfold UINT_MOD; decide))

/-- On a binary of fewer than `2^32` bytes the loop of `exor` ends after
`len - i + 1` tests and has overwritten the bytes from `i` on. -/
theorem exorFor_spec (bin : List Nat) (byte : Nat) (hlen : bin.length < UINT_MOD) :
    ∀ (fuel : Nat) (outbin : List Nat) (i : Nat), i ≤ bin.length → bin.length - i < fuel →
      ∃ out, exorFor bin byte fuel outbin i = some out ∧
        Filled bin byte outbin out i bin.length := by
  intro fuel
  induction fuel with
  | zero => intro outbin i _ h; exact absurd h (Nat.not_lt_zero _)
  | succ fuel ih =>
    intro outbin i hi hf
    rw [exorFor]
    by_cases h : i < bin.length
    · rw [if_pos h, Nat.mod_eq_of_lt (by omega : i + 1 < UINT_MOD)]
      obtain ⟨out, h1, h2⟩ := ih (outbin.set i ((bin.getD i 0 ^^^ byte) % 256)) (i + 1)
        (by omega) (by omega)
      refine ⟨out, h1, ?_⟩
      intro j
      rw [h2 j, getElem?_set_map]
      by_cases hj : i = j
      · subst hj
        rw [if_neg (by omega), if_pos rfl, if_pos (by omega)]
        rfl
      · rw [if_neg hj]
        by_cases hj2 : i + 1 ≤ j ∧ j < bin.length
        · rw [if_pos hj2, if_pos (by omega)]
        · rw [if_neg hj2, if_neg (by omega)]
    · rw [if_neg h]
      have : i = bin.length := by omega
      subst this
      exact ⟨outbin, rfl, Filled.refl _ _ _ _⟩

/-- On a non-empty binary of fewer than `2^32` bytes `exor` returns the
transformed binary with a yield count of 0. -/
theorem exor_below_4GiB (junk : Nat → Nat) (S : List Nat) (K : Nat) (hS : S ≠ [])
    (hlen : S.length < UINT_MOD) (hB : IsBytes S) (hK : K ≤ 255) :
    exor (S.length + 1) junk S K = some (Term.tuple2 (S.map (fun b => b ^^^ K)) 0) := by
  unfold exor
  rw [enif_get_uint_of_le hK]
  simp only []
  rw [if_neg (by omega), if_neg (by simpa using hS), Nat.mod_eq_of_lt (by omega : K < 256)]
  obtain ⟨out, h1, h2⟩ := exorFor_spec S K hlen (S.length + 1) ((List.range S.length).map junk) 0
    (Nat.zero_le _) (by omega)
  rw [h1]
  have hl : out.length = S.length := by rw [h2.length_eq]; simp
  have hd := h2.done (fun j hj => absurd hj (Nat.not_lt_zero j)) (by simp)
  have ht := take_eq_map S K out hd
  rw [← hl, List.take_length] at ht
  rw [ht, map_xor_bytes S K hB hK]
  rfl

/-- C14, the code at the failing input: on a binary of `2^32` bytes `exor`
has not returned after any number of loop tests; its 32-bit counter wraps to
0 before it can reach `bin.size`. -/
theorem exor_never_returns_on_4GiB :
    fourGiB ≠ [] ∧ fourGiB.length = 2 ^ 32 ∧ fourGiB.length < 2 ^ 64 ∧
    ∀ (fuel : Nat) (junk : Nat → Nat), exor fuel junk fourGiB 0 = none := by
  have hl : fourGiB.length = 2 ^ 32 := List.length_replicate _ _
  refine ⟨?_, hl, by rw [hl]; decide, ?_⟩
  · intro h
    rw [h] at hl
    exact absurd hl (by decide)
  · intro fuel junk
    unfold exor
    rw [enif_get_uint_of_le (by decide)]
    simp only []
    rw [if_neg (by decide), hl, if_neg (by decide),
      exorFor_diverges fourGiB _ (by rw [hl]; exact Nat.le_refl _) fuel _ 0
        (by unfold UINT_MOD; decide)]
    rfl

/-! ## The yield count -/

end Bitwise
